import Mathlib

/-!
Verification of the NetSim network-simulator core (`src/model/network_model.py`,
`src/controller/network_controller.py`) against its natural-language
specification.  The Python classes are shallowly embedded: the mutable
`NetworkModel` object becomes an immutable record, each method becomes a
function from the record (plus arguments) to a new record and/or a result,
Python `dict`s keyed by node name become association lists or total functions
with an `Option` codomain, Python ints become `ℤ`, and Python floats (used only
for 2D positions and distance comparisons) become `ℚ` — every numeric
comparison performed by the code on these values is order-theoretic, so exact
rational arithmetic is a faithful model of the intended real-number semantics.
Methods that can raise (`delete_node`, `load_from_file`, `find_nearest_edge`)
return the partially mutated state together with an `Option String` error, or
an `Except`, mirroring where the Python exception would escape.
-/

namespace NetSim

/-- Node names are Python strings. -/
abbrev Node := String

/-- 2D positions, Python float pairs modelled as rational pairs. -/
abbrev Pos := ℚ × ℚ

/-- Shallow embedding of the `NetworkModel` class state.
`nodes` is the node list of the `networkx` graph `G` in insertion order;
`gedges` is `G`'s edge set, at most one entry per unordered endpoint pair,
carrying the current weight attribute; `node_positions` is the positions
dict as an insertion-ordered association list; `edgeRecords` is the
`_edges` list kept for persistence. -/
structure NetworkModel where
  nodes : List Node
  gedges : List (Node × Node × ℤ)
  node_positions : List (Node × Pos)
  edgeRecords : List (Node × Node × ℤ)
deriving DecidableEq, Repr

/-- The state produced by `__init__` (and by `clear`). -/
def emptyModel : NetworkModel := ⟨[], [], [], []⟩

/-- Does edge entry `e` join the unordered pair of endpoints `u,v`
(`networkx` graphs are undirected)? -/
def samePair (u v : Node) (e : Node × Node × ℤ) : Bool :=
  (decide (e.1 = u) && decide (e.2.1 = v)) || (decide (e.1 = v) && decide (e.2.1 = u))

/-- Equality of unordered endpoint pairs, the propositional counterpart of
`samePair`. -/
def inPair (x y u v : Node) : Prop := (x = u ∧ y = v) ∨ (x = v ∧ y = u)

/-- Weight attribute `G[u][v]['weight']` of the edge between `u` and `v`,
`none` when the edge is absent. -/
def lookupW (ge : List (Node × Node × ℤ)) (u v : Node) : Option ℤ :=
  (ge.find? (samePair u v)).map (fun e => e.2.2)

/-- Membership test `G.has_edge(u, v)`. -/
def hasEdgeB (ge : List (Node × Node × ℤ)) (u v : Node) : Bool :=
  (ge.find? (samePair u v)).isSome

/-- Effect of `G.add_edge(u, v, weight=w)` on the edge set: overwrite the
weight if the unordered pair is already present, otherwise append. -/
def setWeight : List (Node × Node × ℤ) → Node → Node → ℤ → List (Node × Node × ℤ)
  | [], u, v, w => [(u, v, w)]
  | e :: rest, u, v, w =>
      if samePair u v e then (e.1, e.2.1, w) :: rest else e :: setWeight rest u v w

/-- Effect of `G.add_node(n)` on the node list: no-op if present, else append. -/
def addNodeRaw (ns : List Node) (n : Node) : List Node :=
  if n ∈ ns then ns else ns ++ [n]

/-- Python dict assignment `d[n] = p` on an insertion-ordered association
list: overwrite in place if the key exists, else append. -/
def posSet : List (Node × Pos) → Node → Pos → List (Node × Pos)
  | [], n, p => [(n, p)]
  | e :: rest, n, p => if e.1 = n then (n, p) :: rest else e :: posSet rest n p

/-- Python dict lookup `d[n]` as an `Option`. -/
def posGet (ps : List (Node × Pos)) (n : Node) : Option Pos :=
  (ps.find? (fun e => e.1 = n)).map (fun e => e.2)

/-- Python `del d[n]` on the association list (the `KeyError` case is
handled at the call site). -/
def posDel (ps : List (Node × Pos)) (n : Node) : List (Node × Pos) :=
  ps.filter (fun e => !(decide (e.1 = n)))

/-- Embedding of `NetworkModel.add_node`. -/
def add_node (m : NetworkModel) (name : Node) (pos : Pos) : NetworkModel :=
  { m with nodes := addNodeRaw m.nodes name,
           node_positions := posSet m.node_positions name pos }

/-- Embedding of `NetworkModel.add_edge`: `G.add_edge` implicitly adds
absent endpoints as nodes (without positions) and sets the weight
attribute, and the method appends the triple to `_edges` unconditionally. -/
def add_edge (m : NetworkModel) (src dest : Node) (w : ℤ) : NetworkModel :=
  { m with nodes := addNodeRaw (addNodeRaw m.nodes src) dest,
           gedges := setWeight m.gedges src dest w,
           edgeRecords := m.edgeRecords ++ [(src, dest, w)] }

/-- Embedding of `NetworkModel.clear`. -/
def clear (_ : NetworkModel) : NetworkModel := emptyModel

/-- Embedding of `NetworkModel.delete_node`.  The Python method removes the
node from the graph, then executes `del self.node_positions[node]` — which
raises `KeyError` when the node has no recorded position, leaving the graph
already mutated but `_edges` untouched — and finally filters `_edges`.
The returned `Option String` is the escaped exception, if any. -/
def delete_node (m : NetworkModel) (node : Node) : NetworkModel × Option String :=
  if node ∈ m.nodes then
    let keep : Node × Node × ℤ → Bool :=
      fun e => !(decide (e.1 = node) || decide (e.2.1 = node))
    let m1 : NetworkModel :=
      { m with nodes := m.nodes.erase node, gedges := m.gedges.filter keep }
    match posGet m.node_positions node with
    | none => (m1, some "KeyError")
    | some _ =>
        let m2 : NetworkModel := { m1 with node_positions := posDel m.node_positions node }
        ({ m2 with edgeRecords := m2.edgeRecords.filter keep }, none)
  else (m, none)

/-- Embedding of `NetworkModel.delete_edge`. -/
def delete_edge (m : NetworkModel) (u v : Node) : NetworkModel :=
  if hasEdgeB m.gedges u v then
    { m with gedges := m.gedges.filter (fun e => !(samePair u v e)),
             edgeRecords := m.edgeRecords.filter (fun e => !(samePair u v e)) }
  else m

/-- Comparison of a freshly computed value against a running minimum that
starts at Python's `float('inf')`, modelled as `none`. -/
def ltOpt (d : ℚ) : Option ℚ → Bool
  | none => true
  | some t => decide (d < t)

/-- Embedding of `NetworkController.find_nearest_node`: fold over the
positions dict in insertion order, tracking `min_dist` (squared distance)
and the current nearest node; a candidate must satisfy both
`dist < min_dist` and `dist < 0.1`. -/
def find_nearest_node (m : NetworkModel) (x y : ℚ) : Option Node :=
  (m.node_positions.foldl
    (fun st e =>
      let d : ℚ := (e.2.1 - x) ^ 2 + (e.2.2 - y) ^ 2
      if ltOpt d st.1 && decide (d < (1 : ℚ) / 10) then (some d, some e.1) else st)
    ((none : Option ℚ), (none : Option Node))).2

/-- Embedding of `NetworkModel._distance_to_segment`, squared.  The Python
code compares true Euclidean distances (`math.hypot`); since all its
comparisons are between nonnegative values, comparing squares is an
order-faithful model that stays inside `ℚ`. -/
def distToSegSq (p a b : Pos) : ℚ :=
  if a = b then (p.1 - a.1) ^ 2 + (p.2 - a.2) ^ 2
  else
    let slen := (b.1 - a.1) ^ 2 + (b.2 - a.2) ^ 2
    let t := ((p.1 - a.1) * (b.1 - a.1) + (p.2 - a.2) * (b.2 - a.2)) / slen
    let tc := max 0 (min 1 t)
    let px := a.1 + tc * (b.1 - a.1)
    let py := a.2 + tc * (b.2 - a.2)
    (p.1 - px) ^ 2 + (p.2 - py) ^ 2

/-- Squared version of the Python comparison `distance < threshold` for a
nonnegative `distance`: it holds iff the threshold is positive and the
squared distance is below the squared threshold. -/
def ltThreshSq (sq thr : ℚ) : Bool :=
  decide (0 < thr) && decide (sq < thr ^ 2)

/-- Loop of `NetworkModel.find_nearest_edge` over the graph's edge list;
`positions[u]` / `positions[v]` raise `KeyError` when a position is missing. -/
def fneGo (ps : List (Node × Pos)) (x y thr : ℚ) :
    List (Node × Node × ℤ) → Option ℚ → Option (Node × Node) →
    Except String (Option (Node × Node))
  | [], _, best => .ok best
  | e :: rest, minSq, best =>
      match posGet ps e.1, posGet ps e.2.1 with
      | some a, some b =>
          let sq := distToSegSq (x, y) a b
          if ltOpt sq minSq && ltThreshSq sq thr then
            fneGo ps x y thr rest (some sq) (some (e.1, e.2.1))
          else fneGo ps x y thr rest minSq best
      | _, _ => .error "KeyError"

/-- Embedding of `NetworkModel.find_nearest_edge` (threshold defaults to 1.0
at the call site). -/
def find_nearest_edge (m : NetworkModel) (x y thr : ℚ) :
    Except String (Option (Node × Node)) :=
  fneGo m.node_positions x y thr m.gedges none none

/-- Neighbor iteration `G.neighbors(u)` together with the weight attribute
of each incident edge, derived from the edge set in insertion order. -/
def nbrs (ge : List (Node × Node × ℤ)) (u : Node) : List (Node × ℤ) :=
  ge.foldr
    (fun e acc =>
      if e.1 = u then (e.2.1, e.2.2) :: acc
      else if e.2.1 = u then (e.1, e.2.2) :: acc
      else acc) []

/-- Order in which `heapq` pops `(distance, node)` tuples: lexicographic on
the int and then on the node string. -/
def pairLe (a b : ℤ × Node) : Prop :=
  a.1 < b.1 ∨ (a.1 = b.1 ∧ a.2 ≤ b.2)

instance pairLe.dec (a b : ℤ × Node) : Decidable (pairLe a b) := by
  unfold pairLe; infer_instance

/-- Comparison `tentative_dist < distances[v]` where the stored distance may
be `float('inf')` (`none`). -/
def ltOptZ (t : ℤ) : Option ℤ → Bool
  | none => true
  | some d => decide (t < d)

/-- Minimum entry of a nonempty heap, found by scanning. -/
def findMinEntry : List (ℤ × Node) → (ℤ × Node) → (ℤ × Node)
  | [], best => best
  | e :: rest, best => findMinEntry rest (if pairLe e best then e else best)

/-- Extraction of the minimum entry from the heap, modelling
`heapq.heappop`: `heapq` always pops an entry that is minimal in the tuple
order, and entries that compare equal are identical tuples, so a model that
removes one minimal occurrence is observationally equivalent. -/
def popMin : List (ℤ × Node) → Option ((ℤ × Node) × List (ℤ × Node))
  | [] => none
  | e :: rest =>
      let mn := findMinEntry rest e
      some (mn, (e :: rest).erase mn)

/-- State of the Dijkstra main loop of `get_forwarding_table`: the heap, the
`distances` dict (`none` is `float('inf')`), the `next_hop` dict (`none` is
Python `None`), and the `visited` set. -/
structure DState where
  heap : List (ℤ × Node)
  dist : Node → Option ℤ
  nxt : Node → Option Node
  visited : List Node

/-- Relaxation of a single neighbor `vw` of the just-finalized node `cur`
popped with distance `d`: skip visited neighbors; on a strict improvement
update the distance, set the next hop by path inheritance, and push the new
entry. -/
def relaxOne (src cur : Node) (d : ℤ) (s : DState) (vw : Node × ℤ) : DState :=
  if vw.1 ∈ s.visited then s
  else
    let tentative := d + vw.2
    if ltOptZ tentative (s.dist vw.1) then
      { heap := (tentative, vw.1) :: s.heap,
        dist := Function.update s.dist vw.1 (some tentative),
        nxt := Function.update s.nxt vw.1 (if cur = src then some vw.1 else s.nxt cur),
        visited := s.visited }
    else s

/-- Main loop of the custom Dijkstra implementation, fuel-indexed; the fuel
is sized below so that the loop always runs to an empty heap. -/
def dijkstraLoop (m : NetworkModel) (src : Node) :
    ℕ → DState → (Node → Option ℤ) × (Node → Option Node)
  | 0, s => (s.dist, s.nxt)
  | fuel + 1, s =>
      match popMin s.heap with
      | none => (s.dist, s.nxt)
      | some ((d, cur), heap') =>
          if cur ∈ s.visited then
            dijkstraLoop m src fuel { s with heap := heap' }
          else
            let s1 : DState :=
              { heap := heap', dist := s.dist, nxt := s.nxt, visited := cur :: s.visited }
            dijkstraLoop m src fuel ((nbrs m.gedges cur).foldl (relaxOne src cur d) s1)

/-- Fuel that always suffices: at most `nodes.length` iterations pop an
unvisited node, each pushing at most `gedges.length` entries. -/
def dijkstraFuel (m : NetworkModel) : ℕ :=
  1 + m.nodes.length * (m.gedges.length + 1)

/-- Initial Dijkstra state for a given source. -/
def dInit (src : Node) : DState :=
  { heap := [(0, src)],
    dist := Function.update (fun _ => none) src (some 0),
    nxt := fun _ => none,
    visited := [] }

/-- Final `distances` and `next_hop` dicts computed by the Dijkstra loop of
`get_forwarding_table` for a source that is present in the graph. -/
def dresult (m : NetworkModel) (src : Node) : (Node → Option ℤ) × (Node → Option Node) :=
  dijkstraLoop m src (dijkstraFuel m) (dInit src)

/-- Embedding of `NetworkModel.get_forwarding_table`: empty table for an
absent source; otherwise the final `next_hop` dict restricted to
destinations other than the source (entries whose hop is `None` are absent,
which the `Option` codomain already expresses). -/
def get_forwarding_table (m : NetworkModel) (node : Node) : Node → Option Node :=
  if node ∈ m.nodes then
    fun d => if d = node then none else (dresult m node).2 d
  else fun _ => none

/-- Spec-level description of packet forwarding: starting at `u`, repeatedly
look up the destination `d` in the forwarding table of the node currently
holding the packet and move to the returned next hop, recording the nodes
traversed; `none` when the chain fails to reach `d` within the fuel. -/
def followChain (m : NetworkModel) (d : Node) : ℕ → Node → Option (List Node)
  | 0, u => if u = d then some [u] else none
  | fuel + 1, u =>
      if u = d then some [u]
      else
        match get_forwarding_table m u d with
        | none => none
        | some h => (followChain m d fuel h).map (fun p => u :: p)

/-- Python file contents and string fields are modelled as character lists
(`String` in Lean is a structure over `List Char`, so the two views convert
by `String.mk` and `String.data`). -/
abbrev PyStr := List Char

/-- Whitespace test used by Python's `str.strip()` with no arguments. -/
def isWs (c : Char) : Bool := c.isWhitespace

/-- Python `str.strip()`: drop whitespace from both ends. -/
def stripWs (s : PyStr) : PyStr :=
  ((s.dropWhile isWs).reverse.dropWhile isWs).reverse

/-- Python `str.split(sep)` for a one-character separator: split on every
occurrence, keeping empty fields. -/
def pySplit (sep : Char) : PyStr → List PyStr
  | [] => [[]]
  | c :: rest =>
      match pySplit sep rest with
      | [] => [[]]
      | h :: t => if c = sep then [] :: h :: t else (c :: h) :: t

/-- Numeric value of a decimal digit character, `none` for non-digits. -/
def digitVal (c : Char) : Option ℕ :=
  if c = '0' then some 0 else if c = '1' then some 1 else if c = '2' then some 2
  else if c = '3' then some 3 else if c = '4' then some 4 else if c = '5' then some 5
  else if c = '6' then some 6 else if c = '7' then some 7 else if c = '8' then some 8
  else if c = '9' then some 9 else none

/-- Character of a decimal digit value. -/
def digitChar (d : ℕ) : Char :=
  if d = 0 then '0' else if d = 1 then '1' else if d = 2 then '2'
  else if d = 3 then '3' else if d = 4 then '4' else if d = 5 then '5'
  else if d = 6 then '6' else if d = 7 then '7' else if d = 8 then '8' else '9'

/-- Accumulating decimal parser over the digit characters of a numeral. -/
def parseNatGo (acc : ℕ) : PyStr → Option ℕ
  | [] => some acc
  | c :: r =>
      match digitVal c with
      | some d => parseNatGo (acc * 10 + d) r
      | none => none

/-- Python `int(s)` on a string: surrounding whitespace is ignored, an
optional single sign precedes a nonempty run of decimal digits (exotic
accepted forms such as digit-group underscores are not modelled; nothing in
the repository produces them). -/
def parseInt (s : PyStr) : Option ℤ :=
  match stripWs s with
  | [] => none
  | c :: rest =>
      if c = '-' then
        if rest = [] then none else (parseNatGo 0 rest).map (fun n => -(n : ℤ))
      else if c = '+' then
        if rest = [] then none else (parseNatGo 0 rest).map (fun n => (n : ℤ))
      else (parseNatGo 0 (c :: rest)).map (fun n => (n : ℤ))

/-- Fuel-indexed digit emitter: decimal digits of `n`, most significant
first, for `n ≤ fuel` (empty output for `n = 0`). -/
def natStrAux : ℕ → ℕ → PyStr
  | 0, _ => []
  | fuel + 1, n => if n = 0 then [] else natStrAux fuel (n / 10) ++ [digitChar (n % 10)]

/-- Decimal numeral of a natural number (most significant digit first). -/
def natStr (n : ℕ) : PyStr :=
  if n = 0 then ['0'] else natStrAux n n

/-- Decimal numeral of an integer, as produced by Python string formatting. -/
def intStr (w : ℤ) : PyStr :=
  if w < 0 then '-' :: natStr w.natAbs else natStr w.toNat

/-- Header line written by `save_to_file`: node count of the graph and
length of the `_edges` record list. -/
def headerLine (m : NetworkModel) : PyStr :=
  natStr m.nodes.length ++ ',' :: natStr m.edgeRecords.length

/-- Data line written by `save_to_file` for one tracked edge record. -/
def recordLine (r : Node × Node × ℤ) : PyStr :=
  r.1.data ++ (',' :: (r.2.1.data ++ (',' :: intStr r.2.2)))

/-- Embedding of `NetworkModel.save_to_file`: the file content written on
success (the `IOError` branch concerns the host filesystem, not the data). -/
def save_content (m : NetworkModel) : PyStr :=
  (headerLine m ++ ['\n']) ++ m.edgeRecords.flatMap (fun r => recordLine r ++ ['\n'])

/-- Parse of the header `_, m = map(int, lines[0].split(','))`: exactly two
comma-separated fields, both parseable as integers; the first (node count)
is read but unused. -/
def parseHeader (line : PyStr) : Option ℤ :=
  match pySplit ',' line with
  | [a, b] =>
      match parseInt a, parseInt b with
      | some _, some mm => some mm
      | _, _ => none
  | _ => none

/-- Parse of one data line: `line.strip().split(',')` must give exactly
three fields, the endpoints are stripped, and the weight must parse as an
integer (the unpacking `for u, v, w in edges` and the `int` conversion are
where the Python code raises). -/
def parseEdgeLine (line : PyStr) : Option (Node × Node × ℤ) :=
  match pySplit ',' (stripWs line) with
  | [u, v, w] =>
      (parseInt w).map (fun wi => (String.mk (stripWs u), String.mk (stripWs v), wi))
  | _ => none

/-- Python slice `l[1:stop]` with a possibly negative stop index. -/
def pySliceFrom1 {α : Type} (l : List α) (stop : ℤ) : List α :=
  let n : ℤ := l.length
  let e : ℤ := if stop < 0 then max (n + stop) 0 else min stop n
  (l.drop 1).take (e - 1).toNat

/-- Layout assignment performed at the end of a successful load:
`nx.spring_layout` is an external randomized layout provider whose numeric
output the core uses verbatim, so it is modelled by an arbitrary concrete
layout giving every node of the graph one position. -/
def assignLayout (st : NetworkModel) : NetworkModel :=
  { st with node_positions := st.nodes.map (fun n => (n, ((0 : ℚ), (0 : ℚ)))) }

/-- Sequential `add_edge` replay of the parsed data lines; the loop raises
at the first malformed line, keeping the edges added so far. -/
def processEdges : NetworkModel → List PyStr → NetworkModel × Option String
  | st, [] => (assignLayout st, none)
  | st, line :: rest =>
      match parseEdgeLine line with
      | none => (st, some "ValueError")
      | some (u, v, w) => processEdges (add_edge st u v w) rest

/-- Embedding of `NetworkModel.load_from_file` on the file's content:
`clear()` runs first, unconditionally; then the content is stripped and
split into lines, the header parsed, the slice `lines[1:m+1]` taken as data
lines, and each data line replayed through `add_edge`.  The returned
`Option String` is the escaped `ValueError`, if any. -/
def load_from_file (_m : NetworkModel) (content : PyStr) : NetworkModel × Option String :=
  match parseHeader ((pySplit '\n' (stripWs content)).headD []) with
  | none => (emptyModel, some "ValueError")
  | some mm =>
      processEdges emptyModel (pySliceFrom1 (pySplit '\n' (stripWs content)) (mm + 1))

/-- State-passing view of `get_forwarding_table`: the method reads the
graph but assigns to no attribute of `self`, so the post-state is the
pre-state. -/
def get_forwarding_table_st (m : NetworkModel) (node : Node) :
    NetworkModel × (Node → Option Node) :=
  (m, get_forwarding_table m node)

/-- State-passing view of `find_nearest_node` (same remark). -/
def find_nearest_node_st (m : NetworkModel) (x y : ℚ) : NetworkModel × Option Node :=
  (m, find_nearest_node m x y)

/-- State-passing view of `find_nearest_edge` (same remark). -/
def find_nearest_edge_st (m : NetworkModel) (x y thr : ℚ) :
    NetworkModel × Except String (Option (Node × Node)) :=
  (m, find_nearest_edge m x y thr)

/-- Three-node chain A-B-C used by the spec's forwarding-table scenario. -/
def mABC : NetworkModel :=
  add_edge
    (add_edge
      (add_node (add_node (add_node emptyModel "A" (0, 0)) "B" (1, 0)) "C" (2, 0))
      "A" "B" 1)
    "B" "C" 1

/-- Model with a single explicitly added node at the origin. -/
def mSoloA : NetworkModel := add_node emptyModel "A" (0, 0)

/-- Model built by a single `add_edge` on the empty model: both endpoints
are implicitly created and have no position. -/
def mEdgeOnly : NetworkModel := add_edge emptyModel "A" "B" 1

/-- Model where the same unordered pair is added twice with different
weights. -/
def mDup : NetworkModel := add_edge (add_edge emptyModel "A" "B" 1) "A" "B" 2

/-- Model holding an edge of weight 0, accepted by `add_edge`. -/
def mZeroW : NetworkModel := add_edge emptyModel "A" "B" 0

/-- Weight of the most recent tracked record joining the pair `u,v` —
the weight that replaying the records through `add_edge` leaves in the
graph. -/
def lastW (rs : List (Node × Node × ℤ)) (u v : Node) : Option ℤ :=
  (rs.reverse.find? (samePair u v)).map (fun r => r.2.2)

/-- At most one entry per unordered endpoint pair — the representation
invariant of the embedded edge set, maintained by every mutation. -/
def pairsUniqueB : List (Node × Node × ℤ) → Bool
  | [] => true
  | e :: rest => rest.all (fun e2 => !(samePair e.1 e.2.1 e2)) && pairsUniqueB rest

/-- Both ends of a character list are free of whitespace, so that Python's
`strip()` leaves it unchanged. -/
def okEnds (l : PyStr) : Bool :=
  (match l.head? with
   | none => true
   | some c => !isWs c) &&
  (match l.getLast? with
   | none => true
   | some c => !isWs c)

/-- Node names that survive the text codec: `strip()`-invariant and free of
the separator characters. -/
def GoodName (s : Node) : Prop :=
  okEnds s.data = true ∧ ',' ∉ s.data ∧ '\n' ∉ s.data

instance GoodName.dec (s : Node) : Decidable (GoodName s) := by
  unfold GoodName
  infer_instance

/-- Consistency between the graph's edge set and the tracked records, as
maintained by the mutation operations: unique pairs in the graph, each
graph edge carries the weight of its most recent record, and each record's
pair is a graph edge. -/
def EdgesConsistent (m : NetworkModel) : Prop :=
  (∀ e ∈ m.gedges, lastW m.edgeRecords e.1 e.2.1 = some e.2.2) ∧
  (∀ r ∈ m.edgeRecords, hasEdgeB m.gedges r.1 r.2.1 = true)

instance EdgesConsistent.dec (m : NetworkModel) : Decidable (EdgesConsistent m) := by
  unfold EdgesConsistent
  infer_instance

/-- Replay of edge triples through `add_edge`, as the load loop does. -/
def replay (st : NetworkModel) (rs : List (Node × Node × ℤ)) : NetworkModel :=
  rs.foldl (fun s r => add_edge s r.1 r.2.1 r.2.2) st

/-- Lines joined by a newline separator (no trailing newline). -/
def joinWithNl : List PyStr → PyStr
  | [] => []
  | [l] => l
  | l :: l' :: rest => l ++ '\n' :: joinWithNl (l' :: rest)

/-- Walks of the embedded graph, as node sequences: nonempty, with an edge
between each pair of consecutive nodes. -/
def isWalkB (ge : List (Node × Node × ℤ)) : List Node → Bool
  | [] => false
  | [_] => true
  | u :: v :: rest => hasEdgeB ge u v && isWalkB ge (v :: rest)

/-- Total weight of a walk (sum of the traversed edge weights). -/
def walkW (ge : List (Node × Node × ℤ)) : List Node → ℤ
  | u :: v :: rest => (lookupW ge u v).getD 0 + walkW ge (v :: rest)
  | _ => 0

/-- Well-formed topology as the spec describes it: weights at least 1,
edge endpoints present as nodes, and one edge entry per unordered pair —
the invariant every reachable state of the application satisfies. -/
def GoodGraph (m : NetworkModel) : Prop :=
  (∀ e ∈ m.gedges, 1 ≤ e.2.2 ∧ e.1 ∈ m.nodes ∧ e.2.1 ∈ m.nodes) ∧
  pairsUniqueB m.gedges = true

instance GoodGraph.dec (m : NetworkModel) : Decidable (GoodGraph m) := by
  unfold GoodGraph
  infer_instance

/-- Invariant of the Dijkstra main loop of `get_forwarding_table`, for
graph `m` and source `src`: heap entries are valid pending work, visited
nodes are finalized with all their neighbors relaxed, every finite
tentative distance is witnessed by a walk whose first hop is the recorded
next hop, and the pop order is monotone. -/
structure DInv (m : NetworkModel) (src : Node) (s : DState) : Prop where
  heapNode : ∀ e ∈ s.heap, e.2 ∈ m.nodes
  heapPos : ∀ e ∈ s.heap, 0 ≤ e.1
  heapGe : ∀ e ∈ s.heap, ∀ t, s.dist e.2 = some t → t ≤ e.1
  heapFin : ∀ e ∈ s.heap, s.dist e.2 ≠ none
  visNode : ∀ x ∈ s.visited, x ∈ m.nodes
  visNodup : s.visited.Nodup
  visFin : ∀ x ∈ s.visited, s.dist x ≠ none
  pend : ∀ x, s.dist x ≠ none → x ∉ s.visited → ∃ t, s.dist x = some t ∧ (t, x) ∈ s.heap
  mono : ∀ x ∈ s.visited, ∀ e ∈ s.heap, ∀ t, s.dist x = some t → t ≤ e.1
  relaxed : ∀ x ∈ s.visited, ∀ vw ∈ nbrs m.gedges x, ∀ tx, s.dist x = some tx →
    ∃ ty, s.dist vw.1 = some ty ∧ ty ≤ tx + vw.2
  distSrc : s.dist src = some 0
  path : ∀ x t, s.dist x = some t →
    ∃ p, isWalkB m.gedges p = true ∧ p.head? = some src ∧ p.getLast? = some x ∧
      walkW m.gedges p = t ∧
      (x = src → p = [src]) ∧
      (x ≠ src → ∃ h rest, s.nxt x = some h ∧ p = src :: h :: rest)

/-- Intermediate invariant during the relaxation of the neighbors of the
just-finalized node `cur`, popped with distance `d`: the `DInv` fields
except that full relaxation is only guaranteed for previously finalized
nodes, plus bookkeeping facts about `cur`. -/
structure RInv (m : NetworkModel) (src cur : Node) (d : ℤ) (s : DState) : Prop where
  heapNode : ∀ e ∈ s.heap, e.2 ∈ m.nodes
  heapPos : ∀ e ∈ s.heap, 0 ≤ e.1
  heapGe : ∀ e ∈ s.heap, ∀ t, s.dist e.2 = some t → t ≤ e.1
  heapFin : ∀ e ∈ s.heap, s.dist e.2 ≠ none
  visNode : ∀ x ∈ s.visited, x ∈ m.nodes
  visNodup : s.visited.Nodup
  visFin : ∀ x ∈ s.visited, s.dist x ≠ none
  pend : ∀ x, s.dist x ≠ none → x ∉ s.visited → ∃ t, s.dist x = some t ∧ (t, x) ∈ s.heap
  mono : ∀ x ∈ s.visited, ∀ e ∈ s.heap, ∀ t, s.dist x = some t → t ≤ e.1
  visLe : ∀ x ∈ s.visited, ∀ t, s.dist x = some t → t ≤ d
  relaxedOld : ∀ x ∈ s.visited, x ≠ cur → ∀ vw ∈ nbrs m.gedges x, ∀ tx,
    s.dist x = some tx → ∃ ty, s.dist vw.1 = some ty ∧ ty ≤ tx + vw.2
  curVis : cur ∈ s.visited
  curDist : s.dist cur = some d
  distSrc : s.dist src = some 0
  path : ∀ x t, s.dist x = some t →
    ∃ p, isWalkB m.gedges p = true ∧ p.head? = some src ∧ p.getLast? = some x ∧
      walkW m.gedges p = t ∧
      (x = src → p = [src]) ∧
      (x ≠ src → ∃ h rest, s.nxt x = some h ∧ p = src :: h :: rest)

/-! Theorems.  Helper lemmas come first, then one theorem per claim. -/

/-- Digit characters decode to the digit they encode. -/
lemma digitVal_digitChar (k : ℕ) (h : k < 10) : digitVal (digitChar k) = some k := by
  interval_cases k <;> decide

/-- Every digit character decodes to some digit. -/
lemma digitChar_isSome (k : ℕ) : (digitVal (digitChar k)).isSome := by
  unfold digitChar
  split_ifs <;> decide

/-- Characters that decode as digits are not whitespace, separators, or
signs. -/
lemma digit_props {c : Char} (h : (digitVal c).isSome) :
    isWs c = false ∧ c ≠ ',' ∧ c ≠ '\n' ∧ c ≠ '-' ∧ c ≠ '+' := by
  unfold digitVal at h
  split_ifs at h with h0 h1 h2 h3 h4 h5 h6 h7 h8 h9 <;>
    first
      | (subst_vars; decide)
      | simp at h

/-- The decimal parser distributes over appending. -/
lemma parseNatGo_append (acc : ℕ) (s t : PyStr) :
    parseNatGo acc (s ++ t) = (parseNatGo acc s).bind (fun a => parseNatGo a t) := by
  induction s generalizing acc with
  | nil => rfl
  | cons c r ih =>
      simp only [List.cons_append, parseNatGo]
      cases digitVal c with
      | none => rfl
      | some d => exact ih _

/-- The digit emitter produces only digit characters. -/
lemma natStrAux_digits : ∀ fuel n, ∀ c ∈ natStrAux fuel n, (digitVal c).isSome := by
  intro fuel
  induction fuel with
  | zero => intro n c hc; simp [natStrAux] at hc
  | succ fuel ih =>
      intro n c hc
      by_cases hn : n = 0
      · simp [natStrAux, hn] at hc
      · rw [natStrAux, if_neg hn] at hc
        rcases List.mem_append.mp hc with h | h
        · exact ih _ c h
        · rw [List.mem_singleton.mp h]; exact digitChar_isSome _

/-- Soundness of the digit emitter against the decimal parser. -/
lemma natStrAux_sound :
    ∀ fuel n, n ≤ fuel → ∀ acc,
      parseNatGo acc (natStrAux fuel n) =
        some (acc * 10 ^ (natStrAux fuel n).length + n) := by
  intro fuel
  induction fuel with
  | zero =>
      intro n hn acc
      interval_cases n
      simp [natStrAux, parseNatGo]
  | succ fuel ih =>
      intro n hn acc
      by_cases h0 : n = 0
      · subst h0; simp [natStrAux, parseNatGo]
      · rw [natStrAux, if_neg h0]
        have hdiv : n / 10 ≤ fuel := by
          have := Nat.div_lt_self (Nat.pos_of_ne_zero h0) (by norm_num : 1 < 10)
          omega
        rw [parseNatGo_append, ih (n / 10) hdiv acc]
        have hmod := digitVal_digitChar (n % 10) (Nat.mod_lt n (by norm_num))
        simp only [Option.some_bind, parseNatGo, hmod, List.length_append,
          List.length_singleton]
        congr 1
        have hmod2 : 10 * (n / 10) + n % 10 = n := Nat.div_add_mod n 10
        rw [pow_succ]
        generalize (10 : ℕ) ^ (natStrAux fuel (n / 10)).length = P
        calc (acc * P + n / 10) * 10 + n % 10
            = acc * (P * 10) + (10 * (n / 10) + n % 10) := by ring
          _ = acc * (P * 10) + n := by rw [hmod2]

/-- Parsing the decimal numeral of `n` yields `n`. -/
lemma parseNatGo_natStr (n : ℕ) : parseNatGo 0 (natStr n) = some n := by
  by_cases h0 : n = 0
  · subst h0; rfl
  · rw [natStr, if_neg h0, natStrAux_sound n n le_rfl 0]
    simp

/-- Decimal numerals consist of digit characters. -/
lemma natStr_digits {n : ℕ} : ∀ c ∈ natStr n, (digitVal c).isSome := by
  intro c hc
  by_cases h0 : n = 0
  · subst h0; rw [natStr] at hc; simp at hc; rw [hc]; decide
  · rw [natStr, if_neg h0] at hc; exact natStrAux_digits n n c hc

/-- Decimal numerals are nonempty. -/
lemma natStr_ne_nil (n : ℕ) : natStr n ≠ [] := by
  by_cases h0 : n = 0
  · subst h0; decide
  · rw [natStr, if_neg h0]
    intro hcontra
    have := natStrAux_sound n n le_rfl 0
    rw [hcontra] at this
    simp [parseNatGo] at this
    omega

/-- The whitespace dropper keeps a list whose first character is not
whitespace. -/
lemma dropWhile_ws_eq_self (l : PyStr) (h : ∀ c, l.head? = some c → isWs c = false) :
    l.dropWhile isWs = l := by
  cases l with
  | nil => rfl
  | cons c r =>
      rw [List.dropWhile_cons_of_neg]
      simp [h c rfl]

/-- Python `strip()` leaves a list with non-whitespace ends unchanged. -/
lemma stripWs_eq_self (l : PyStr) (hh : ∀ c, l.head? = some c → isWs c = false)
    (hl : ∀ c, l.getLast? = some c → isWs c = false) : stripWs l = l := by
  unfold stripWs
  rw [dropWhile_ws_eq_self l hh, dropWhile_ws_eq_self, List.reverse_reverse]
  intro c hc
  rw [List.head?_reverse] at hc
  exact hl c hc

/-- Python `strip()` removes exactly the trailing newline of a line block
whose ends are otherwise free of whitespace. -/
lemma stripWs_append_newline (x : PyStr) (hh : ∀ c, x.head? = some c → isWs c = false)
    (hl : ∀ c, x.getLast? = some c → isWs c = false) : stripWs (x ++ ['\n']) = x := by
  cases hx : x with
  | nil => decide
  | cons c r =>
      unfold stripWs
      rw [← hx]
      have h1 : (x ++ ['\n']).dropWhile isWs = x ++ ['\n'] := by
        apply dropWhile_ws_eq_self
        intro c' hc'
        rw [hx] at hc'
        simp only [List.cons_append, List.head?_cons, Option.some.injEq] at hc'
        subst hc'
        exact hh c (by rw [hx]; rfl)
      rw [h1, List.reverse_append]
      have h2 : (['\n'].reverse ++ x.reverse).dropWhile isWs = x.reverse := by
        simp only [List.reverse_singleton, List.singleton_append]
        rw [List.dropWhile_cons_of_pos (by decide)]
        apply dropWhile_ws_eq_self
        intro c' hc'
        rw [List.head?_reverse] at hc'
        exact hl c' hc'
      rw [h2, List.reverse_reverse]

/-- The splitter always returns at least one field. -/
lemma pySplit_ne_nil (sep : Char) : ∀ l : PyStr, pySplit sep l ≠ [] := by
  intro l
  cases l with
  | nil => simp [pySplit]
  | cons c r =>
      rw [pySplit]
      rcases pySplit sep r with _ | ⟨x, t⟩
      · simp
      · split_ifs <;> simp

/-- Splitting a separator-free list yields that single field. -/
lemma pySplit_no_sep (sep : Char) : ∀ l : PyStr, sep ∉ l → pySplit sep l = [l] := by
  intro l
  induction l with
  | nil => intro _; rfl
  | cons c r ih =>
      intro h
      have hc : c ≠ sep := fun hc => h (hc ▸ List.mem_cons_self c r)
      have hr : sep ∉ r := fun hr => h (List.mem_cons_of_mem _ hr)
      rw [pySplit, ih hr]
      simp [hc]

/-- Splitting past a separator-free field peels that field off. -/
lemma pySplit_append_sep (sep : Char) :
    ∀ (a b : PyStr), sep ∉ a → pySplit sep (a ++ sep :: b) = a :: pySplit sep b := by
  intro a
  induction a with
  | nil =>
      intro b _
      show pySplit sep (sep :: b) = [] :: pySplit sep b
      rw [pySplit]
      rcases h : pySplit sep b with _ | ⟨x, t⟩
      · exact absurd h (pySplit_ne_nil sep b)
      · simp
  | cons c r ih =>
      intro b h
      have hc : c ≠ sep := fun hc => h (hc ▸ List.mem_cons_self c r)
      have hr : sep ∉ r := fun hr => h (List.mem_cons_of_mem _ hr)
      show pySplit sep (c :: (r ++ sep :: b)) = (c :: r) :: pySplit sep b
      rw [pySplit, ih b hr]
      simp [hc]

/-- Appending the final newline to joined lines interleaves one newline
after every line. -/
lemma joinWithNl_flat :
    ∀ (ls : List PyStr) (h : PyStr),
      joinWithNl (h :: ls) ++ ['\n'] = h ++ '\n' :: ls.flatMap (fun l => l ++ ['\n']) := by
  intro ls
  induction ls with
  | nil => intro h; simp [joinWithNl]
  | cons l t ih =>
      intro h
      rw [show joinWithNl (h :: l :: t) = h ++ '\n' :: joinWithNl (l :: t) from rfl]
      simp only [List.cons_append, List.append_assoc, List.flatMap_cons]
      rw [← List.cons_append, ← List.singleton_append, List.append_assoc]
      congr 1
      simpa using ih l

/-- Splitting newline-joined newline-free lines recovers the lines. -/
lemma pySplit_joinWithNl :
    ∀ ls : List PyStr, ls ≠ [] → (∀ l ∈ ls, '\n' ∉ l) →
      pySplit '\n' (joinWithNl ls) = ls := by
  intro ls
  induction ls with
  | nil => intro h; exact absurd rfl h
  | cons l t ih =>
      intro _ hn
      cases t with
      | nil => exact pySplit_no_sep '\n' l (hn l (List.mem_cons_self l []))
      | cons l' t' =>
          rw [show joinWithNl (l :: l' :: t') = l ++ '\n' :: joinWithNl (l' :: t') from rfl]
          rw [pySplit_append_sep '\n' l _ (hn l (List.mem_cons_self l _))]
          rw [ih (by simp) (fun x hx => hn x (List.mem_cons_of_mem _ hx))]

/-- The last line of a newline-join determines its final character. -/
lemma joinWithNl_getLast :
    ∀ (ls : List PyStr) (t : PyStr), ls.getLast? = some t → t ≠ [] →
      (joinWithNl ls).getLast? = t.getLast? := by
  intro ls
  induction ls with
  | nil => intro t ht; simp at ht
  | cons l rest ih =>
      intro t ht hne
      cases rest with
      | nil =>
          simp only [List.getLast?_singleton, Option.some.injEq] at ht
          rw [show joinWithNl [l] = l from rfl, ht]
      | cons l' t' =>
          rw [List.getLast?_cons_cons] at ht
          have hjoin := ih t ht hne
          rw [show joinWithNl (l :: l' :: t') = l ++ '\n' :: joinWithNl (l' :: t') from rfl]
          rw [List.getLast?_append_of_ne_nil l (by simp)]
          rcases hj : joinWithNl (l' :: t') with _ | ⟨c, r⟩
          · rw [hj] at hjoin
            simp only [List.getLast?_nil] at hjoin
            exact absurd hjoin.symm (by simpa using hne)
          · rw [hj] at hjoin
            rw [← hjoin, List.getLast?_cons_cons]

/-- Appending on the left preserves a nonempty suffix's last element. -/
lemma getLast?_append_right {α : Type} {l₂ : List α} (l₁ : List α) (h : l₂ ≠ []) :
    (l₁ ++ l₂).getLast? = l₂.getLast? :=
  List.getLast?_append_of_ne_nil l₁ h

/-- Decimal numerals are unchanged by `strip()`. -/
lemma stripWs_natStr (n : ℕ) : stripWs (natStr n) = natStr n := by
  apply stripWs_eq_self
  · intro c hc
    exact (digit_props (natStr_digits c (List.mem_of_mem_head? (hc ▸ Option.mem_def.mpr rfl)))).1
  · intro c hc
    exact (digit_props (natStr_digits c (List.mem_of_getLast?_eq_some hc))).1

/-- Python `int` inverts the decimal printer on naturals. -/
lemma parseInt_natStr (n : ℕ) : parseInt (natStr n) = some (n : ℤ) := by
  unfold parseInt
  rw [stripWs_natStr]
  rcases h : natStr n with _ | ⟨c, cs⟩
  · exact absurd h (natStr_ne_nil n)
  · have hd : (digitVal c).isSome :=
      natStr_digits c (h ▸ List.mem_cons_self c cs)
    have hprops := digit_props hd
    split
    · rename_i heq
      exact absurd heq (by simp)
    · rename_i c' rest' heq
      obtain ⟨hc', hrest'⟩ := List.cons.inj heq
      subst hc'
      subst hrest'
      rw [if_neg hprops.2.2.2.1, if_neg hprops.2.2.2.2, ← h, parseNatGo_natStr]
      rfl

/-- Python `int` inverts the decimal printer on integers. -/
lemma parseInt_intStr (w : ℤ) : parseInt (intStr w) = some w := by
  by_cases hw : w < 0
  · rw [intStr, if_pos hw]
    unfold parseInt
    have hstrip : stripWs ('-' :: natStr w.natAbs) = '-' :: natStr w.natAbs := by
      apply stripWs_eq_self
      · intro c hc
        simp only [List.head?_cons, Option.some.injEq] at hc
        rw [← hc]; decide
      · intro c hc
        rw [show ('-' :: natStr w.natAbs) = ['-'] ++ natStr w.natAbs from rfl,
          getLast?_append_right _ (natStr_ne_nil _)] at hc
        exact (digit_props (natStr_digits c (List.mem_of_getLast?_eq_some hc))).1
    rw [hstrip]
    split
    · rename_i heq
      exact absurd heq (by simp)
    · rename_i c' rest' heq
      obtain ⟨hc', hrest'⟩ := List.cons.inj heq
      subst hrest'
      rw [if_pos hc'.symm, if_neg (natStr_ne_nil w.natAbs), parseNatGo_natStr]
      have h2 : -(w.natAbs : ℤ) = w := by omega
      exact congrArg some h2
  · rw [intStr, if_neg hw]
    rw [parseInt_natStr]
    have : (w.toNat : ℤ) = w := Int.toNat_of_nonneg (not_lt.mp hw)
    rw [this]

/-- Commas do not occur in decimal numerals of naturals. -/
lemma natStr_no_comma (n : ℕ) : ',' ∉ natStr n := by
  intro h
  exact absurd rfl (digit_props (natStr_digits ',' h)).2.1

/-- Newlines do not occur in decimal numerals of naturals. -/
lemma natStr_no_nl (n : ℕ) : '\n' ∉ natStr n := by
  intro h
  exact absurd rfl (digit_props (natStr_digits '\n' h)).2.2.1

/-- Commas do not occur in decimal numerals of integers. -/
lemma intStr_no_comma (w : ℤ) : ',' ∉ intStr w := by
  unfold intStr
  split
  · intro h
    rcases List.mem_cons.mp h with h | h
    · exact absurd h.symm (by decide)
    · exact natStr_no_comma _ h
  · exact natStr_no_comma _

/-- Newlines do not occur in decimal numerals of integers. -/
lemma intStr_no_nl (w : ℤ) : '\n' ∉ intStr w := by
  unfold intStr
  split
  · intro h
    rcases List.mem_cons.mp h with h | h
    · exact absurd h.symm (by decide)
    · exact natStr_no_nl _ h
  · exact natStr_no_nl _

/-- Integer numerals are nonempty. -/
lemma intStr_ne_nil (w : ℤ) : intStr w ≠ [] := by
  unfold intStr
  split
  · simp
  · exact natStr_ne_nil _

/-- Integer numerals end in a digit. -/
lemma intStr_last_digit (w : ℤ) :
    ∀ c, (intStr w).getLast? = some c → (digitVal c).isSome := by
  intro c hc
  unfold intStr at hc
  split at hc
  · rw [show ('-' :: natStr w.natAbs) = ['-'] ++ natStr w.natAbs from rfl,
      getLast?_append_right _ (natStr_ne_nil _)] at hc
    exact natStr_digits c (List.mem_of_getLast?_eq_some hc)
  · exact natStr_digits c (List.mem_of_getLast?_eq_some hc)

/-- First conjunct of `okEnds` unpacked. -/
lemma okEnds_head {l : PyStr} (h : okEnds l = true) :
    ∀ c, l.head? = some c → isWs c = false := by
  intro c hc
  unfold okEnds at h
  rw [hc, Bool.and_eq_true] at h
  simpa using h.1

/-- Second conjunct of `okEnds` unpacked. -/
lemma okEnds_last {l : PyStr} (h : okEnds l = true) :
    ∀ c, l.getLast? = some c → isWs c = false := by
  intro c hc
  unfold okEnds at h
  rw [hc, Bool.and_eq_true] at h
  simpa using h.2

/-- Newlines do not occur in the saved header line. -/
lemma headerLine_no_nl (m : NetworkModel) : '\n' ∉ headerLine m := by
  unfold headerLine
  intro h
  rcases List.mem_append.mp h with h | h
  · exact natStr_no_nl _ h
  · rcases List.mem_cons.mp h with h | h
    · exact absurd h (by decide)
    · exact natStr_no_nl _ h

/-- Parsing the saved header recovers the tracked-record count. -/
lemma parseHeader_headerLine (m : NetworkModel) :
    parseHeader (headerLine m) = some (m.edgeRecords.length : ℤ) := by
  unfold parseHeader headerLine
  rw [pySplit_append_sep ',' _ _ (natStr_no_comma _),
    pySplit_no_sep ',' _ (natStr_no_comma _)]
  simp [parseInt_natStr]

/-- A saved record line starts with a non-whitespace character. -/
lemma recordLine_head (r : Node × Node × ℤ) (h1 : GoodName r.1) :
    ∀ c, (recordLine r).head? = some c → isWs c = false := by
  intro c hc
  unfold recordLine at hc
  rcases hu : r.1.data with _ | ⟨c0, r0⟩
  · rw [hu] at hc
    simp only [List.nil_append, List.head?_cons, Option.some.injEq] at hc
    rw [← hc]; decide
  · rw [hu, List.head?_append_of_ne_nil _ (by simp)] at hc
    simp only [List.head?_cons, Option.some.injEq] at hc
    subst hc
    exact okEnds_head h1.1 c0 (by rw [hu]; rfl)

/-- A saved record line ends with a digit, hence not whitespace. -/
lemma recordLine_last (r : Node × Node × ℤ) :
    ∀ c, (recordLine r).getLast? = some c → isWs c = false := by
  intro c hc
  unfold recordLine at hc
  rw [getLast?_append_right _ (by simp)] at hc
  rw [show (',' :: (r.2.1.data ++ ',' :: intStr r.2.2)) =
      [','] ++ (r.2.1.data ++ ',' :: intStr r.2.2) from rfl] at hc
  rw [getLast?_append_right _ (by simp)] at hc
  rw [getLast?_append_right _ (by simp)] at hc
  rw [show (',' :: intStr r.2.2) = [','] ++ intStr r.2.2 from rfl] at hc
  rw [getLast?_append_right _ (intStr_ne_nil _)] at hc
  exact (digit_props (intStr_last_digit _ c hc)).1

/-- Newlines do not occur in a record line of well-named endpoints. -/
lemma recordLine_no_nl (r : Node × Node × ℤ) (h1 : GoodName r.1) (h2 : GoodName r.2.1) :
    '\n' ∉ recordLine r := by
  unfold recordLine
  intro h
  rcases List.mem_append.mp h with h | h
  · exact h1.2.2 h
  · rcases List.mem_cons.mp h with h | h
    · exact absurd h (by decide)
    · rcases List.mem_append.mp h with h | h
      · exact h2.2.2 h
      · rcases List.mem_cons.mp h with h | h
        · exact absurd h (by decide)
        · exact intStr_no_nl _ h

/-- Parsing a saved record line of well-named endpoints recovers the
record. -/
lemma parseEdgeLine_recordLine (r : Node × Node × ℤ)
    (h1 : GoodName r.1) (h2 : GoodName r.2.1) :
    parseEdgeLine (recordLine r) = some r := by
  unfold parseEdgeLine
  rw [stripWs_eq_self _ (recordLine_head r h1) (recordLine_last r)]
  unfold recordLine
  rw [pySplit_append_sep ',' _ _ h1.2.1, pySplit_append_sep ',' _ _ h2.2.1,
    pySplit_no_sep ',' _ (intStr_no_comma _)]
  simp only [parseInt_intStr, Option.map_some']
  rw [stripWs_eq_self _ (okEnds_head h1.1) (okEnds_last h1.1)]
  rw [stripWs_eq_self _ (okEnds_head h2.1) (okEnds_last h2.1)]

/-- A newline-join starts with its first line. -/
lemma joinWithNl_head (h : PyStr) (ls : List PyStr) :
    ∃ t, joinWithNl (h :: ls) = h ++ t := by
  cases ls with
  | nil => exact ⟨[], by simp [joinWithNl]⟩
  | cons l t' => exact ⟨'\n' :: joinWithNl (l :: t'), rfl⟩

/-- The saved header ends in a digit. -/
lemma headerLine_last (m : NetworkModel) :
    ∀ c, (headerLine m).getLast? = some c → isWs c = false := by
  intro c hc
  unfold headerLine at hc
  rw [getLast?_append_right _ (by simp)] at hc
  rw [show (',' :: natStr m.edgeRecords.length) = [','] ++ natStr m.edgeRecords.length
    from rfl] at hc
  rw [getLast?_append_right _ (natStr_ne_nil _)] at hc
  exact (digit_props (natStr_digits c (List.mem_of_getLast?_eq_some hc))).1

/-- The saved header starts with a digit. -/
lemma headerLine_head (m : NetworkModel) :
    ∀ c, (headerLine m).head? = some c → isWs c = false := by
  intro c hc
  unfold headerLine at hc
  rw [List.head?_append_of_ne_nil _ (natStr_ne_nil _)] at hc
  exact (digit_props (natStr_digits c (List.mem_of_mem_head? (hc ▸ Option.mem_def.mpr rfl)))).1

/-- A record line is never empty. -/
lemma recordLine_ne_nil (r : Node × Node × ℤ) : recordLine r ≠ [] := by
  unfold recordLine
  simp

/-- The file written by `save_to_file` is the newline-join of the header
line and the record lines, plus a trailing newline. -/
lemma save_content_join (m : NetworkModel) :
    save_content m =
      joinWithNl (headerLine m :: m.edgeRecords.map recordLine) ++ ['\n'] := by
  rw [joinWithNl_flat]
  unfold save_content
  rw [List.flatMap_map]
  simp

/-- Stripping and splitting the saved file recovers the header line and
the record lines. -/
lemma save_content_lines (m : NetworkModel)
    (hns : ∀ r ∈ m.edgeRecords, GoodName r.1 ∧ GoodName r.2.1) :
    pySplit '\n' (stripWs (save_content m)) =
      headerLine m :: m.edgeRecords.map recordLine := by
  rw [save_content_join]
  rw [stripWs_append_newline]
  · apply pySplit_joinWithNl
    · simp
    · intro l hl
      rcases List.mem_cons.mp hl with hl | hl
      · rw [hl]; exact headerLine_no_nl m
      · obtain ⟨r, hr, hrl⟩ := List.mem_map.mp hl
        rw [← hrl]
        exact recordLine_no_nl r (hns r hr).1 (hns r hr).2
  · intro c hc
    obtain ⟨t, ht⟩ := joinWithNl_head (headerLine m) (m.edgeRecords.map recordLine)
    rw [ht, List.head?_append_of_ne_nil _ (by
      unfold headerLine
      simp [natStr_ne_nil])] at hc
    exact headerLine_head m c hc
  · intro c hc
    rcases hrec : m.edgeRecords with _ | ⟨r0, rs⟩
    · rw [hrec] at hc
      simp only [List.map_nil] at hc
      rw [show joinWithNl [headerLine m] = headerLine m from rfl] at hc
      exact headerLine_last m c hc
    · have hlast : ∃ rl, (m.edgeRecords.map recordLine).getLast? = some rl ∧
          ∃ r ∈ m.edgeRecords, rl = recordLine r := by
        rw [List.getLast?_map]
        rcases hl : m.edgeRecords.getLast? with _ | r
        · rw [hrec] at hl; simp at hl
        · exact ⟨recordLine r, rfl, r, List.mem_of_getLast?_eq_some hl, rfl⟩
      obtain ⟨rl, hrl, r, hr, hrlr⟩ := hlast
      have hne : (m.edgeRecords.map recordLine) ≠ [] := by rw [hrec]; simp
      have hls : (headerLine m :: m.edgeRecords.map recordLine).getLast? = some rl := by
        rw [show (headerLine m :: m.edgeRecords.map recordLine) =
          [headerLine m] ++ m.edgeRecords.map recordLine from rfl]
        rw [getLast?_append_right _ hne]
        exact hrl
      rw [joinWithNl_getLast _ rl hls (by rw [hrlr]; exact recordLine_ne_nil r)] at hc
      rw [hrlr] at hc
      exact recordLine_last r c hc

/-- The edge-scan loop of `find_nearest_edge` never raises when both
endpoint positions exist for every scanned edge. -/
lemma fneGo_ok (ps : List (Node × Pos)) (x y thr : ℚ) :
    ∀ (l : List (Node × Node × ℤ)) (minSq : Option ℚ) (best : Option (Node × Node)),
    (∀ e ∈ l, (posGet ps e.1).isSome ∧ (posGet ps e.2.1).isSome) →
    ∃ r, fneGo ps x y thr l minSq best = .ok r := by
  intro l
  induction l with
  | nil => exact fun _ _ _ => ⟨_, rfl⟩
  | cons e rest ih =>
      intro minSq best h
      have he := h e (List.mem_cons_self e rest)
      obtain ⟨a, ha⟩ := Option.isSome_iff_exists.mp he.1
      obtain ⟨b, hb⟩ := Option.isSome_iff_exists.mp he.2
      have hrest : ∀ e' ∈ rest, (posGet ps e'.1).isSome ∧ (posGet ps e'.2.1).isSome :=
        fun e' he' => h e' (List.mem_cons_of_mem _ he')
      simp only [fneGo, ha, hb]
      split
      · exact ih _ _ hrest
      · exact ih _ _ hrest

/-- Every entry of `setWeight ge u v w` either carries the new weight `w`
or was already an entry of `ge`. -/
lemma setWeight_mem (u v : Node) (w : ℤ) :
    ∀ ge, ∀ e ∈ setWeight ge u v w, e.2.2 = w ∨ e ∈ ge := by
  intro ge
  induction ge with
  | nil =>
      intro e he
      simp only [setWeight, List.mem_singleton] at he
      exact Or.inl (by rw [he])
  | cons p rest ih =>
      intro e he
      simp only [setWeight] at he
      by_cases hp : samePair u v p
      · rw [if_pos hp] at he
        rcases List.mem_cons.mp he with h | h
        · exact Or.inl (by rw [h])
        · exact Or.inr (List.mem_cons_of_mem _ h)
      · rw [if_neg hp] at he
        rcases List.mem_cons.mp he with h | h
        · exact Or.inr (h ▸ List.mem_cons_self p rest)
        · rcases ih e h with h' | h'
          · exact Or.inl h'
          · exact Or.inr (List.mem_cons_of_mem _ h')

/-- C2: on the topology with nodes A(0,0), B(1,0), C(2,0) and unit-weight
edges A-B and B-C, `get_forwarding_table(A)` is exactly the mapping
sending B to B and C to B, with the source A excluded and every other
name absent. -/
theorem C2_forwarding_table_chain :
    get_forwarding_table mABC "A" =
      fun d => if d = "B" ∨ d = "C" then some "B" else none := by
  have h : get_forwarding_table mABC "A" =
      fun d => if d = "A" then none
        else Function.update (Function.update (fun _ => none) "B" (some "B")) "C"
          (some "B") d := rfl
  funext d
  rw [h]
  by_cases hC : d = "C"
  · subst hC; simp
  · by_cases hB : d = "B"
    · subst hB; simp
    · by_cases hA : d = "A"
      · subst hA; simp
      · simp [hA, hB, hC, Function.update]

/-- C3 (code bug): the nearest-node threshold in the code is `0.1` applied
to the squared distance, not `0.01`: with a single node A at the origin
and query point (0.2, 0), whose squared distance 0.04 is at least 0.01,
`find_nearest_node` still returns A (0.04 < 0.1), though the claim — and
the code's own comment, which says the threshold is 0.1 squared — says no
match is returned. -/
theorem C3_threshold_mismatch :
    find_nearest_node mSoloA (1 / 5) 0 = some "A" ∧
    ¬ (((0 : ℚ) - 1 / 5) ^ 2 + ((0 : ℚ) - 0) ^ 2 < 1 / 100) := by
  constructor
  · simp [find_nearest_node, mSoloA, add_node, emptyModel, posSet, ltOpt]
    norm_num
  · norm_num

/-- C4 counterexample: `add_edge` on the empty model creates node A in the
graph but assigns it no position, and `delete_node "A"` then raises
`KeyError` — refuting the claim that implicitly created endpoints get a
default position so that position lookups never fail for a node in the
graph. -/
theorem C4_counterexample :
    "A" ∈ mEdgeOnly.nodes ∧ (delete_node mEdgeOnly "A").2 = some "KeyError" := by
  constructor
  · decide
  · rfl

/-- C4 as amended: `add_edge` creates absent endpoints with no position at
all, so the every-node-has-a-position invariant can be broken; but on any
state in which every node of the graph does have a position (and edge
endpoints are nodes), `delete_node` and `find_nearest_edge` never fail. -/
theorem C4_amended (m : NetworkModel) (node : Node) (x y thr : ℚ)
    (hwf : ∀ e ∈ m.gedges, e.1 ∈ m.nodes ∧ e.2.1 ∈ m.nodes)
    (hpos : ∀ n ∈ m.nodes, (posGet m.node_positions n).isSome) :
    (delete_node m node).2 = none ∧ ∃ r, find_nearest_edge m x y thr = .ok r := by
  constructor
  · unfold delete_node
    by_cases hn : node ∈ m.nodes
    · obtain ⟨p, hp⟩ := Option.isSome_iff_exists.mp (hpos node hn)
      simp [hn, hp]
    · simp [hn]
  · exact fneGo_ok m.node_positions x y thr m.gedges none none
      (fun e he => ⟨hpos e.1 (hwf e he).1, hpos e.2.1 (hwf e he).2⟩)

/-- C4 amended witness at the concrete three-node chain. -/
theorem C4_amended_witness :
    (∀ e ∈ mABC.gedges, e.1 ∈ mABC.nodes ∧ e.2.1 ∈ mABC.nodes) ∧
    ((delete_node mABC "A").2 = none ∧ ∃ r, find_nearest_edge mABC 0 0 1 = .ok r) :=
  ⟨by decide, C4_amended mABC "A" 0 0 1 (by decide) (by decide)⟩

/-- C6 counterexample: re-adding the edge A-B with a new weight appends a
second tracked record instead of updating the existing one, so the pair
A-B appears twice among the records while the topology has one edge, and
the saved header reports 2 edges for a 1-edge topology. -/
theorem C6_counterexample :
    mDup.edgeRecords = [("A", "B", 1), ("A", "B", 2)] ∧
    mDup.gedges = [("A", "B", 2)] ∧
    headerLine mDup = ['2', ',', '2'] := by
  refine ⟨rfl, by decide, by decide⟩

/-- C6 as amended: `add_edge` on an existing pair overwrites the weight in
the graph but unconditionally appends a new record to the insertion-ordered
`_edges` list, so an edge may occur several times among the tracked
records; the saved header reports the graph's node count together with the
record count, which can exceed the topology's edge count. -/
theorem C6_amended (m : NetworkModel) (u v : Node) (w : ℤ) :
    (add_edge m u v w).edgeRecords = m.edgeRecords ++ [(u, v, w)] ∧
    lookupW (add_edge m u v w).gedges u v = some w ∧
    headerLine (add_edge m u v w) =
      natStr (add_edge m u v w).nodes.length ++
        ',' :: natStr (m.edgeRecords.length + 1) := by
  refine ⟨rfl, ?_, ?_⟩
  · show lookupW (setWeight m.gedges u v w) u v = some w
    induction m.gedges with
    | nil => simp [setWeight, lookupW, List.find?, samePair]
    | cons p rest ih =>
        by_cases hp : samePair u v p
        · have h1 : samePair u v (p.1, p.2.1, w) = true := by
            simp only [samePair] at hp ⊢
            exact hp
          simp [setWeight, hp, lookupW, List.find?, h1]
        · simp only [setWeight, if_neg hp]
          simpa [lookupW, List.find?, hp] using ih
  · show headerLine (add_edge m u v w) = _
    unfold headerLine
    rw [show (add_edge m u v w).edgeRecords = m.edgeRecords ++ [(u, v, w)] from rfl]
    simp

/-- C8 counterexample: `add_edge` performs no weight validation — a call
with weight 0 leaves an edge of weight 0 in the topology, refuting the
claim that weights below 1 can never end up stored. -/
theorem C8_counterexample :
    lookupW mZeroW.gedges "A" "B" = some 0 ∧ ¬ (1 ≤ (0 : ℤ)) := by
  exact ⟨by decide, by decide⟩

/-- C8 as amended: the model does not enforce the weight bound; it is
enforced only by the GUI input dialog (range 1 to 100).  What holds of the
code is preservation: if every stored weight is at least 1 and `add_edge`
is called with a weight at least 1, every stored weight remains at
least 1. -/
theorem C8_amended (m : NetworkModel) (u v : Node) (w : ℤ) (e : Node × Node × ℤ)
    (hw : 1 ≤ w) (hall : ∀ e' ∈ m.gedges, 1 ≤ e'.2.2)
    (he : e ∈ (add_edge m u v w).gedges) : 1 ≤ e.2.2 := by
  rcases setWeight_mem u v w m.gedges e he with h | h
  · rw [h]; exact hw
  · exact hall e h

/-- C8 amended witness at a concrete call. -/
theorem C8_amended_witness :
    (1 : ℤ) ≤ 5 ∧ (∀ e' ∈ mABC.gedges, 1 ≤ e'.2.2) ∧
    ("A", "C", 5) ∈ (add_edge mABC "A" "C" 5).gedges ∧ (1 : ℤ) ≤ ("A", "C", (5 : ℤ)).2.2 :=
  ⟨by decide, by decide, by decide,
    C8_amended mABC "A" "C" 5 ("A", "C", 5) (by decide) (by decide) (by decide)⟩

/-- The replay loop of `load_from_file` raises exactly when some line of
its input fails to parse (the first bad line is reached, since the loop
only advances past lines that parse). -/
lemma processEdges_err :
    ∀ (l : List PyStr) (st : NetworkModel),
      (processEdges st l).2 ≠ none ↔ ∃ line ∈ l, parseEdgeLine line = none := by
  intro l
  induction l with
  | nil => simp [processEdges]
  | cons line rest ih =>
      intro st
      cases hp : parseEdgeLine line with
      | none => simp [processEdges, hp]
      | some r =>
          simp only [processEdges, hp, List.mem_cons]
          rw [ih]
          constructor
          · rintro ⟨l', hl', hbad⟩
            exact ⟨l', Or.inr hl', hbad⟩
          · rintro ⟨l', hl' | hl', hbad⟩
            · rw [hl'] at hbad; rw [hp] at hbad; exact absurd hbad (by simp)
            · exact ⟨l', hl', hbad⟩

/-- C7 counterexample: the file `"2,3\nA,B,1"` declares 3 edges but has a
single data line; the claim says load must fail, yet the code's slice
`lines[1:m+1]` silently truncates and the load succeeds. -/
theorem C7_counterexample :
    (load_from_file emptyModel ['2', ',', '3', '\n', 'A', ',', 'B', ',', '1']).2 = none ∧
    (pySliceFrom1 (pySplit '\n'
        (stripWs ['2', ',', '3', '\n', 'A', ',', 'B', ',', '1'])) (3 + 1)).length < 3 := by
  constructor
  · rfl
  · decide

/-- C7 as amended: load fails exactly when the header cannot be parsed as
two comma-separated integers, or some data line among those actually taken
by the slice `lines[1:edge_count+1]` does not split into exactly three
comma-separated fields with an integer third field; a truncated edge list
(fewer data lines than the declared count) is not an error — the available
prefix is loaded silently. -/
theorem C7_load_failure_iff (m : NetworkModel) (content : PyStr) :
    (load_from_file m content).2 ≠ none ↔
      match parseHeader ((pySplit '\n' (stripWs content)).headD []) with
      | none => True
      | some mm =>
          ∃ line ∈ pySliceFrom1 (pySplit '\n' (stripWs content)) (mm + 1),
            parseEdgeLine line = none := by
  cases h : parseHeader ((pySplit '\n' (stripWs content)).headD []) with
  | none => simp only [load_from_file, h]; simp
  | some mm => simp only [load_from_file, h, processEdges_err]

/-- C9: `load_from_file` clears the topology before reading anything, so
its entire outcome — final state and error alike, on success or on any
failure — is independent of the prior state; no pre-existing node or edge
can survive a load. -/
theorem C9_load_clears_first (m₁ m₂ : NetworkModel) (content : PyStr) :
    load_from_file m₁ content = load_from_file m₂ content := rfl

/-- C10: the three query operations return the model unchanged — their
state-passing embeddings have the pre-state as post-state. -/
theorem C10_queries_pure (m : NetworkModel) (node : Node) (x y thr : ℚ) :
    (get_forwarding_table_st m node).1 = m ∧
    (find_nearest_node_st m x y).1 = m ∧
    (find_nearest_edge_st m x y thr).1 = m :=
  ⟨rfl, rfl, rfl⟩

/-- Unfolding of `samePair` to the propositional pair equality. -/
lemma samePair_eq_true_iff {u v : Node} {e : Node × Node × ℤ} :
    samePair u v e = true ↔ inPair e.1 e.2.1 u v := by
  simp [samePair, inPair]

/-- Unordered pair equality is symmetric. -/
lemma inPair_symm {x y u v : Node} (h : inPair x y u v) : inPair u v x y := by
  rcases h with ⟨h1, h2⟩ | ⟨h1, h2⟩
  · exact Or.inl ⟨h1.symm, h2.symm⟩
  · exact Or.inr ⟨h2.symm, h1.symm⟩

/-- Matching the same unordered pair gives the same test on any entry. -/
lemma samePair_congr {x y u v : Node} (h : inPair x y u v) :
    ∀ r : Node × Node × ℤ, samePair u v r = samePair x y r := by
  intro r
  rcases h with ⟨h1, h2⟩ | ⟨h1, h2⟩
  · rw [h1, h2]
  · rw [h1, h2]
    simp only [samePair]
    exact Bool.or_comm _ _

/-- The `lastW` search on a freshly extended record list. -/
lemma lastW_cons (r : Node × Node × ℤ) (rs : List (Node × Node × ℤ)) (u v : Node) :
    lastW (r :: rs) u v =
      match lastW rs u v with
      | some w => some w
      | none => if samePair u v r then some r.2.2 else none := by
  unfold lastW
  rw [List.reverse_cons, List.find?_append]
  cases h : rs.reverse.find? (samePair u v) with
  | none =>
      cases hr : samePair u v r with
      | false => simp [List.find?, hr]
      | true => simp [List.find?, hr]
  | some e => simp

/-- Two Booleans agree when their truth is equivalent. -/
lemma bool_eq_of_iff {x y : Bool} (h : x = true ↔ y = true) : x = y := by
  cases x <;> cases y <;> simp_all

/-- Unordered pair equality is transitive. -/
lemma inPair_trans {x y p q a b : Node} (h1 : inPair x y p q) (h2 : inPair p q a b) :
    inPair x y a b := by
  rcases h1 with ⟨u1, u2⟩ | ⟨u1, u2⟩ <;> rcases h2 with ⟨v1, v2⟩ | ⟨v1, v2⟩ <;>
    subst_vars <;>
    first
      | exact Or.inl ⟨rfl, rfl⟩
      | exact Or.inr ⟨rfl, rfl⟩

/-- Weight lookup on a nonempty edge list, head first. -/
lemma lookupW_cons (e : Node × Node × ℤ) (ge : List (Node × Node × ℤ)) (u v : Node) :
    lookupW (e :: ge) u v = if samePair u v e then some e.2.2 else lookupW ge u v := by
  unfold lookupW
  simp only [List.find?]
  cases h : samePair u v e <;> simp [h]

/-- Weight lookup after `setWeight`: the written pair now maps to the new
weight, all other pairs are untouched. -/
lemma lookupW_setWeight :
    ∀ (ge : List (Node × Node × ℤ)) (a b : Node) (w : ℤ) (u v : Node),
      lookupW (setWeight ge a b w) u v =
        if samePair u v (a, b, w) then some w else lookupW ge u v := by
  intro ge a b w u v
  induction ge with
  | nil =>
      unfold setWeight lookupW
      cases h : samePair u v (a, b, w) <;> simp [List.find?, h]
  | cons e rest ih =>
      unfold setWeight
      by_cases he : samePair a b e = true
      · rw [if_pos he]
        have hpe : inPair e.1 e.2.1 a b := samePair_eq_true_iff.mp he
        have hEq : samePair u v (e.1, e.2.1, w) = samePair u v (a, b, w) := by
          apply bool_eq_of_iff
          constructor
          · intro hx
            exact samePair_eq_true_iff.mpr
              (inPair_trans (inPair_symm hpe) (samePair_eq_true_iff.mp hx))
          · intro hx
            exact samePair_eq_true_iff.mpr
              (inPair_trans hpe (samePair_eq_true_iff.mp hx))
        have hEq2 : samePair u v e = samePair u v (a, b, w) := hEq
        rw [lookupW_cons, lookupW_cons, hEq, hEq2]
        cases hab : samePair u v (a, b, w) <;> simp [hab]
      · rw [if_neg he]
        cases huv : samePair u v e with
        | true =>
            have hab : samePair u v (a, b, w) = false := by
              cases hx : samePair u v (a, b, w) with
              | false => rfl
              | true =>
                  have h1 : inPair a b u v := samePair_eq_true_iff.mp hx
                  have h2 : inPair e.1 e.2.1 u v := samePair_eq_true_iff.mp huv
                  have h3 : inPair e.1 e.2.1 a b := inPair_trans h2 (inPair_symm h1)
                  exact absurd (samePair_eq_true_iff.mpr h3) he
            rw [lookupW_cons, lookupW_cons, huv, hab]
            simp
        | false =>
            rw [lookupW_cons, lookupW_cons, huv, ih]
            cases hab : samePair u v (a, b, w) <;> simp [hab]

/-- Replaying lines that all parse back to their records runs the whole
load loop successfully. -/
lemma processEdges_map (rs : List (Node × Node × ℤ)) :
    ∀ st : NetworkModel, (∀ r ∈ rs, parseEdgeLine (recordLine r) = some r) →
      processEdges st (rs.map recordLine) = (assignLayout (replay st rs), none) := by
  induction rs with
  | nil => intro st _; rfl
  | cons r rest ih =>
      intro st h
      have hr := h r (List.mem_cons_self r rest)
      simp only [List.map_cons, processEdges, hr]
      exact ih _ (fun r' hr' => h r' (List.mem_cons_of_mem _ hr'))

/-- Replay appends exactly the replayed triples to the tracked records. -/
lemma replay_edgeRecords :
    ∀ (rs : List (Node × Node × ℤ)) (st : NetworkModel),
      (replay st rs).edgeRecords = st.edgeRecords ++ rs := by
  intro rs
  induction rs with
  | nil => intro st; simp [replay]
  | cons r rest ih =>
      intro st
      show (replay (add_edge st r.1 r.2.1 r.2.2) rest).edgeRecords = _
      rw [ih]
      simp [add_edge]

/-- Replay leaves each pair mapped to its most recent replayed weight,
falling back to the initial state's weight. -/
lemma replay_lookupW :
    ∀ (rs : List (Node × Node × ℤ)) (st : NetworkModel) (u v : Node),
      lookupW (replay st rs).gedges u v =
        match lastW rs u v with
        | some w => some w
        | none => lookupW st.gedges u v := by
  intro rs
  induction rs with
  | nil => intro st u v; rfl
  | cons r rest ih =>
      intro st u v
      show lookupW (replay (add_edge st r.1 r.2.1 r.2.2) rest).gedges u v = _
      rw [ih, lastW_cons]
      cases hrest : lastW rest u v with
      | some w => rfl
      | none =>
          show lookupW (setWeight st.gedges r.1 r.2.1 r.2.2) u v = _
          rw [lookupW_setWeight]
          have : samePair u v (r.1, r.2.1, r.2.2) = samePair u v r := rfl
          rw [this]
          cases hr : samePair u v r <;> simp [hr]

/-- Membership after `G.add_node`. -/
lemma mem_addNodeRaw {ns : List Node} {n x : Node} :
    x ∈ addNodeRaw ns n ↔ x ∈ ns ∨ x = n := by
  unfold addNodeRaw
  split
  · rename_i h
    constructor
    · exact Or.inl
    · rintro (hx | hx)
      · exact hx
      · exact hx ▸ h
  · simp

/-- Node membership after a replay: an old node or an endpoint of some
replayed triple. -/
lemma replay_nodes :
    ∀ (rs : List (Node × Node × ℤ)) (st : NetworkModel) (x : Node),
      x ∈ (replay st rs).nodes ↔ x ∈ st.nodes ∨ ∃ r ∈ rs, x = r.1 ∨ x = r.2.1 := by
  intro rs
  induction rs with
  | nil => intro st x; simp [replay]
  | cons r rest ih =>
      intro st x
      show x ∈ (replay (add_edge st r.1 r.2.1 r.2.2) rest).nodes ↔ _
      rw [ih]
      show x ∈ addNodeRaw (addNodeRaw st.nodes r.1) r.2.1 ∨ _ ↔ _
      rw [mem_addNodeRaw, mem_addNodeRaw]
      constructor
      · rintro (((hx | hx) | hx) | ⟨r', hr', hx⟩)
        · exact Or.inl hx
        · exact Or.inr ⟨r, List.mem_cons_self r rest, Or.inl hx⟩
        · exact Or.inr ⟨r, List.mem_cons_self r rest, Or.inr hx⟩
        · exact Or.inr ⟨r', List.mem_cons_of_mem _ hr', hx⟩
      · rintro (hx | ⟨r', hr', hx⟩)
        · exact Or.inl (Or.inl (Or.inl hx))
        · rcases List.mem_cons.mp hr' with hr' | hr'
          · subst hr'
            rcases hx with hx | hx
            · exact Or.inl (Or.inl (Or.inr hx))
            · exact Or.inl (Or.inr hx)
          · exact Or.inr ⟨r', hr', hx⟩

/-- The slice `lines[1:m+1]` takes exactly the data lines when the header
declares their true count. -/
lemma pySliceFrom1_all {α : Type} (h : α) (t : List α) :
    pySliceFrom1 (h :: t) ((t.length : ℤ) + 1) = t := by
  unfold pySliceFrom1
  have hstop : ¬ ((t.length : ℤ) + 1 < 0) := by omega
  simp only [if_neg hstop, List.length_cons]
  push_cast
  rw [min_self]
  have h1 : ((t.length : ℤ) + 1 - 1).toNat = t.length := by omega
  rw [h1]
  simp

/-- Graph weights agree with the most recent tracked record on every pair,
for states whose edge set and records are consistent. -/
lemma consistent_lookup (m : NetworkModel) (hc : EdgesConsistent m) :
    ∀ u v, lookupW m.gedges u v = lastW m.edgeRecords u v := by
  intro u v
  cases hfind : m.gedges.find? (samePair u v) with
  | some e =>
      have he : e ∈ m.gedges := List.mem_of_find?_eq_some hfind
      have hsp : samePair u v e = true := List.find?_some hfind
      have hip : inPair e.1 e.2.1 u v := samePair_eq_true_iff.mp hsp
      have hfun : samePair u v = samePair e.1 e.2.1 :=
        funext (samePair_congr hip)
      have hlw : lookupW m.gedges u v = some e.2.2 := by
        unfold lookupW
        rw [hfind]
        rfl
      rw [hlw]
      have := hc.1 e he
      unfold lastW at this ⊢
      rw [hfun]
      exact this.symm
  | none =>
      have hnone : lookupW m.gedges u v = none := by
        unfold lookupW
        rw [hfind]
        rfl
      rw [hnone]
      cases hlast : lastW m.edgeRecords u v with
      | none => rfl
      | some w =>
          unfold lastW at hlast
          cases hfr : m.edgeRecords.reverse.find? (samePair u v) with
          | none => rw [hfr] at hlast; exact absurd hlast (by simp)
          | some r =>
              have hr : r ∈ m.edgeRecords := by
                have := List.mem_of_find?_eq_some hfr
                exact List.mem_reverse.mp this
              have hsp : samePair u v r = true := List.find?_some hfr
              have hip : inPair r.1 r.2.1 u v := samePair_eq_true_iff.mp hsp
              have hedge := hc.2 r hr
              unfold hasEdgeB at hedge
              cases hfe : m.gedges.find? (samePair r.1 r.2.1) with
              | none => rw [hfe] at hedge; exact absurd hedge (by simp)
              | some e =>
                  have hspe : samePair r.1 r.2.1 e = true := List.find?_some hfe
                  have hmem : e ∈ m.gedges := List.mem_of_find?_eq_some hfe
                  have : samePair u v e = true := by
                    rw [samePair_congr hip]
                    exact hspe
                  have := List.find?_eq_none.mp hfind e hmem
                  simp_all

/-- C5 counterexample: a topology holding one isolated node A saves as the
file `"1,0\n"`, and loading that file yields an empty node set — the node
set does not round-trip, refuting the claim. -/
theorem C5_counterexample :
    "A" ∈ mSoloA.nodes ∧
    (load_from_file mSoloA (save_content mSoloA)).2 = none ∧
    (load_from_file mSoloA (save_content mSoloA)).1.nodes = [] := by
  refine ⟨by decide, rfl, rfl⟩

/-- C5 as amended: on a consistent state with codec-safe node names,
save-then-load succeeds and reproduces the tracked records exactly (hence
the edge multiset up to endpoint order) and every pairwise weight of the
topology; the node set is reproduced only up to isolated nodes — a node
survives the round trip exactly when it is an endpoint of some tracked
record. -/
theorem C5_amended (m : NetworkModel) (u v x : Node)
    (hns : ∀ r ∈ m.edgeRecords, GoodName r.1 ∧ GoodName r.2.1)
    (hcons : EdgesConsistent m)
    (hnodes : ∀ r ∈ m.edgeRecords, r.1 ∈ m.nodes ∧ r.2.1 ∈ m.nodes) :
    (load_from_file m (save_content m)).2 = none ∧
    (load_from_file m (save_content m)).1.edgeRecords = m.edgeRecords ∧
    lookupW (load_from_file m (save_content m)).1.gedges u v = lookupW m.gedges u v ∧
    (x ∈ (load_from_file m (save_content m)).1.nodes ↔
      x ∈ m.nodes ∧ ∃ r ∈ m.edgeRecords, x = r.1 ∨ x = r.2.1) := by
  have hparse : ∀ r ∈ m.edgeRecords, parseEdgeLine (recordLine r) = some r :=
    fun r hr => parseEdgeLine_recordLine r (hns r hr).1 (hns r hr).2
  have hload : load_from_file m (save_content m) =
      (assignLayout (replay emptyModel m.edgeRecords), none) := by
    unfold load_from_file
    rw [save_content_lines m hns]
    rw [show (headerLine m :: m.edgeRecords.map recordLine).headD [] = headerLine m
      from rfl]
    rw [parseHeader_headerLine]
    show processEdges emptyModel (pySliceFrom1
      (headerLine m :: List.map recordLine m.edgeRecords)
      ((m.edgeRecords.length : ℤ) + 1)) = _
    rw [show ((m.edgeRecords.length : ℤ) + 1) =
      (((m.edgeRecords.map recordLine).length : ℤ) + 1) from by simp]
    rw [pySliceFrom1_all]
    exact processEdges_map m.edgeRecords emptyModel hparse
  rw [hload]
  refine ⟨rfl, ?_, ?_, ?_⟩
  · show (replay emptyModel m.edgeRecords).edgeRecords = m.edgeRecords
    rw [replay_edgeRecords]
    rfl
  · show lookupW (replay emptyModel m.edgeRecords).gedges u v = _
    rw [replay_lookupW, consistent_lookup m hcons u v]
    cases h : lastW m.edgeRecords u v <;> rfl
  · show x ∈ (replay emptyModel m.edgeRecords).nodes ↔ _
    rw [replay_nodes]
    constructor
    · rintro (hx | ⟨r, hr, hx⟩)
      · exact absurd hx (by simp [emptyModel])
      · refine ⟨?_, r, hr, hx⟩
        rcases hx with hx | hx
        · exact hx ▸ (hnodes r hr).1
        · exact hx ▸ (hnodes r hr).2
    · rintro ⟨-, r, hr, hx⟩
      exact Or.inr ⟨r, hr, hx⟩

/-- C5 amended witness at the concrete three-node chain with probes on the
pair A-B and the node A. -/
theorem C5_amended_witness :
    (∀ r ∈ mABC.edgeRecords, GoodName r.1 ∧ GoodName r.2.1) ∧
    EdgesConsistent mABC ∧
    ((load_from_file mABC (save_content mABC)).2 = none ∧
     (load_from_file mABC (save_content mABC)).1.edgeRecords = mABC.edgeRecords ∧
     lookupW (load_from_file mABC (save_content mABC)).1.gedges "A" "B" =
       lookupW mABC.gedges "A" "B" ∧
     ("A" ∈ (load_from_file mABC (save_content mABC)).1.nodes ↔
       "A" ∈ mABC.nodes ∧ ∃ r ∈ mABC.edgeRecords, "A" = r.1 ∨ "A" = r.2.1)) :=
  ⟨by decide, by decide, C5_amended mABC "A" "B" "A" (by decide) (by decide) (by decide)⟩

/-- The scanned minimum is the seed or a list element. -/
lemma findMinEntry_mem : ∀ (l : List (ℤ × Node)) (b : ℤ × Node),
    findMinEntry l b = b ∨ findMinEntry l b ∈ l := by
  intro l
  induction l with
  | nil => intro b; exact Or.inl rfl
  | cons e rest ih =>
      intro b
      have hred : findMinEntry (e :: rest) b =
          findMinEntry rest (if pairLe e b then e else b) := rfl
      rw [hred]
      rcases ih (if pairLe e b then e else b) with h | h
      · rw [h]
        split
        · exact Or.inr (List.mem_cons_self _ _)
        · exact Or.inl rfl
      · exact Or.inr (List.mem_cons_of_mem _ h)

/-- The scanned minimum's key is below the seed's key. -/
lemma findMinEntry_le_seed : ∀ (l : List (ℤ × Node)) (b : ℤ × Node),
    (findMinEntry l b).1 ≤ b.1 := by
  intro l
  induction l with
  | nil => intro b; exact le_refl _
  | cons e rest ih =>
      intro b
      show (findMinEntry rest (if pairLe e b then e else b)).1 ≤ b.1
      refine le_trans (ih _) ?_
      split
      · rename_i h
        rcases h with h | ⟨h, -⟩
        · exact le_of_lt h
        · exact le_of_eq h
      · exact le_refl _

/-- The scanned minimum's key is below every list element's key. -/
lemma findMinEntry_le : ∀ (l : List (ℤ × Node)) (b : ℤ × Node),
    ∀ e ∈ l, (findMinEntry l b).1 ≤ e.1 := by
  intro l
  induction l with
  | nil => intro b e he; simp at he
  | cons e0 rest ih =>
      intro b e he
      rcases List.mem_cons.mp he with he | he
      · subst he
        show (findMinEntry rest (if pairLe e b then e else b)).1 ≤ e.1
        refine le_trans (findMinEntry_le_seed _ _) ?_
        split
        · exact le_refl _
        · rename_i h
          unfold pairLe at h
          push_neg at h
          exact h.1
      · exact ih _ e he

/-- Specification of `heapq.heappop` on the modelled heap. -/
lemma popMin_spec {heap : List (ℤ × Node)} {d : ℤ} {c : Node} {heap' : List (ℤ × Node)}
    (h : popMin heap = some ((d, c), heap')) :
    (d, c) ∈ heap ∧ heap' = heap.erase (d, c) ∧ ∀ e ∈ heap, d ≤ e.1 := by
  cases heap with
  | nil => exact absurd h (by simp [popMin])
  | cons e rest =>
      simp only [popMin, Option.some.injEq, Prod.mk.injEq] at h
      obtain ⟨h1, h2⟩ := h
      have hmem := findMinEntry_mem rest e
      rw [h1] at hmem
      have hseed := findMinEntry_le_seed rest e
      rw [h1] at hseed
      have hle := findMinEntry_le rest e
      refine ⟨?_, ?_, ?_⟩
      · rcases hmem with hm | hm
        · rw [hm]; exact List.mem_cons_self e rest
        · exact List.mem_cons_of_mem _ hm
      · rw [← h2, h1]
      · intro e' he'
        rcases List.mem_cons.mp he' with he' | he'
        · subst he'
          exact hseed
        · have := hle e' he'
          rw [h1] at this
          exact this

/-- An edge exists wherever a weight lookup succeeds. -/
lemma hasEdge_of_lookupW {ge : List (Node × Node × ℤ)} {u v : Node} {w : ℤ}
    (h : lookupW ge u v = some w) : hasEdgeB ge u v = true := by
  unfold lookupW at h
  unfold hasEdgeB
  cases hf : ge.find? (samePair u v) with
  | none => rw [hf] at h; exact absurd h (by simp)
  | some e => rfl

/-- A weight lookup succeeds wherever an edge exists. -/
lemma lookupW_of_hasEdge {ge : List (Node × Node × ℤ)} {u v : Node}
    (h : hasEdgeB ge u v = true) : ∃ w, lookupW ge u v = some w := by
  unfold hasEdgeB at h
  unfold lookupW
  cases hf : ge.find? (samePair u v) with
  | none => rw [hf] at h; exact absurd h (by simp)
  | some e => exact ⟨e.2.2, rfl⟩

/-- Looked-up weights are at least 1 on a well-formed topology. -/
lemma lookupW_pos {ge : List (Node × Node × ℤ)} (hW : ∀ e ∈ ge, 1 ≤ e.2.2)
    {u v : Node} {w : ℤ} (h : lookupW ge u v = some w) : 1 ≤ w := by
  unfold lookupW at h
  cases hf : ge.find? (samePair u v) with
  | none => rw [hf] at h; exact absurd h (by simp)
  | some e =>
      rw [hf] at h
      have := hW e (List.mem_of_find?_eq_some hf)
      simp only [Option.map_some', Option.some.injEq] at h
      rw [← h]
      exact this

/-- Weight lookup is symmetric in the endpoints. -/
lemma lookupW_symm (ge : List (Node × Node × ℤ)) (u v : Node) :
    lookupW ge u v = lookupW ge v u := by
  unfold lookupW
  rw [funext (samePair_congr (Or.inr ⟨rfl, rfl⟩ : inPair v u u v))]

/-- Edge membership is symmetric in the endpoints. -/
lemma hasEdgeB_symm (ge : List (Node × Node × ℤ)) (u v : Node) :
    hasEdgeB ge u v = hasEdgeB ge v u := by
  unfold hasEdgeB
  rw [funext (samePair_congr (Or.inr ⟨rfl, rfl⟩ : inPair v u u v))]

/-- Endpoints of an existing edge are nodes of a well-formed topology. -/
lemma endpoint_mem {m : NetworkModel} (hG : GoodGraph m) {u v : Node}
    (h : hasEdgeB m.gedges u v = true) : u ∈ m.nodes ∧ v ∈ m.nodes := by
  unfold hasEdgeB at h
  cases hf : m.gedges.find? (samePair u v) with
  | none => rw [hf] at h; exact absurd h (by simp)
  | some e =>
      have hmem := List.mem_of_find?_eq_some hf
      have hsp := List.find?_some hf
      have hip := samePair_eq_true_iff.mp hsp
      have hg := hG.1 e hmem
      rcases hip with ⟨h1, h2⟩ | ⟨h1, h2⟩
      · exact ⟨h1 ▸ hg.2.1, h2 ▸ hg.2.2⟩
      · exact ⟨h2 ▸ hg.2.2, h1 ▸ hg.2.1⟩

/-- Unfolding of the neighbor iteration on a nonempty edge list. -/
lemma nbrs_cons (e : Node × Node × ℤ) (ge : List (Node × Node × ℤ)) (u : Node) :
    nbrs (e :: ge) u =
      if e.1 = u then (e.2.1, e.2.2) :: nbrs ge u
      else if e.2.1 = u then (e.1, e.2.2) :: nbrs ge u
      else nbrs ge u := rfl

/-- A successful weight lookup contributes an entry to the neighbor list. -/
lemma mem_nbrs_of_lookupW :
    ∀ (ge : List (Node × Node × ℤ)) (u v : Node) (w : ℤ),
      lookupW ge u v = some w → (v, w) ∈ nbrs ge u := by
  intro ge
  induction ge with
  | nil => intro u v w h; exact absurd h (by simp [lookupW, List.find?])
  | cons e rest ih =>
      intro u v w h
      rw [lookupW_cons] at h
      rw [nbrs_cons]
      by_cases hsp : samePair u v e = true
      · rw [if_pos hsp] at h
        have hw : e.2.2 = w := by injection h
        rcases samePair_eq_true_iff.mp hsp with ⟨h1, h2⟩ | ⟨h1, h2⟩
        · rw [if_pos h1, ← h2, hw]
          exact List.mem_cons_self _ _
        · by_cases h3 : e.1 = u
          · rw [if_pos h3]
            have hv : e.2.1 = v := by rw [h2, ← h3, h1]
            rw [← hv, hw]
            exact List.mem_cons_self _ _
          · rw [if_neg h3, if_pos h2, ← h1, hw]
            exact List.mem_cons_self _ _
      · rw [if_neg (by simpa using hsp)] at h
        have hmem := ih u v w h
        split_ifs with h1 h2
        · exact List.mem_cons_of_mem _ hmem
        · exact List.mem_cons_of_mem _ hmem
        · exact hmem

/-- Head property of the pair-uniqueness invariant. -/
lemma pairsUniqueB_cons {e : Node × Node × ℤ} {ge : List (Node × Node × ℤ)}
    (h : pairsUniqueB (e :: ge) = true) :
    (∀ e2 ∈ ge, samePair e.1 e.2.1 e2 = false) ∧ pairsUniqueB ge = true := by
  unfold pairsUniqueB at h
  rw [Bool.and_eq_true, List.all_eq_true] at h
  refine ⟨fun e2 he2 => ?_, h.2⟩
  have := h.1 e2 he2
  simpa using this

/-- On a pair-unique edge list, each neighbor entry records the looked-up
weight of the corresponding edge. -/
lemma nbrs_lookupW :
    ∀ (ge : List (Node × Node × ℤ)), pairsUniqueB ge = true →
      ∀ (u v : Node) (w : ℤ), (v, w) ∈ nbrs ge u → lookupW ge u v = some w := by
  intro ge
  induction ge with
  | nil => intro _ u v w h; exact absurd h (by simp [nbrs])
  | cons e rest ih =>
      intro hU u v w h
      obtain ⟨hhead, htail⟩ := pairsUniqueB_cons hU
      rw [nbrs_cons] at h
      rw [lookupW_cons]
      by_cases h1 : e.1 = u
      · rw [if_pos h1] at h
        rcases List.mem_cons.mp h with h | h
        · have hv : e.2.1 = v := (congrArg Prod.fst h).symm
          have hw : e.2.2 = w := (congrArg Prod.snd h).symm
          have hsp : samePair u v e = true :=
            samePair_eq_true_iff.mpr (Or.inl ⟨h1, hv⟩)
          rw [if_pos hsp, hw]
        · have hrest := ih htail u v w h
          have hsp : samePair u v e = false := by
            cases hx : samePair u v e with
            | false => rfl
            | true =>
                obtain ⟨e2, he2mem, hsp2⟩ : ∃ e2 ∈ rest, samePair u v e2 = true := by
                  have := hasEdge_of_lookupW hrest
                  unfold hasEdgeB at this
                  cases hf : rest.find? (samePair u v) with
                  | none => rw [hf] at this; exact absurd this (by simp)
                  | some e2 =>
                      exact ⟨e2, List.mem_of_find?_eq_some hf, List.find?_some hf⟩
                have hip1 : inPair e.1 e.2.1 u v := samePair_eq_true_iff.mp hx
                have hip2 : inPair e2.1 e2.2.1 u v := samePair_eq_true_iff.mp hsp2
                have : samePair e.1 e.2.1 e2 = true :=
                  samePair_eq_true_iff.mpr (inPair_trans hip2 (inPair_symm hip1))
                rw [hhead e2 he2mem] at this
                exact absurd this (by simp)
          rw [if_neg (by simpa using hsp)]
          exact hrest
      · rw [if_neg h1] at h
        by_cases h2 : e.2.1 = u
        · rw [if_pos h2] at h
          rcases List.mem_cons.mp h with h | h
          · have hv : e.1 = v := (congrArg Prod.fst h).symm
            have hw : e.2.2 = w := (congrArg Prod.snd h).symm
            have hsp : samePair u v e = true :=
              samePair_eq_true_iff.mpr (Or.inr ⟨hv, h2⟩)
            rw [if_pos hsp, hw]
          · have hrest := ih htail u v w h
            have hsp : samePair u v e = false := by
              cases hx : samePair u v e with
              | false => rfl
              | true =>
                  obtain ⟨e2, he2mem, hsp2⟩ : ∃ e2 ∈ rest, samePair u v e2 = true := by
                    have := hasEdge_of_lookupW hrest
                    unfold hasEdgeB at this
                    cases hf : rest.find? (samePair u v) with
                    | none => rw [hf] at this; exact absurd this (by simp)
                    | some e2 =>
                        exact ⟨e2, List.mem_of_find?_eq_some hf, List.find?_some hf⟩
                  have hip1 : inPair e.1 e.2.1 u v := samePair_eq_true_iff.mp hx
                  have hip2 : inPair e2.1 e2.2.1 u v := samePair_eq_true_iff.mp hsp2
                  have : samePair e.1 e.2.1 e2 = true :=
                    samePair_eq_true_iff.mpr (inPair_trans hip2 (inPair_symm hip1))
                  rw [hhead e2 he2mem] at this
                  exact absurd this (by simp)
            rw [if_neg (by simpa using hsp)]
            exact hrest
        · rw [if_neg h2] at h
          have hrest := ih htail u v w h
          have hsp : samePair u v e = false := by
            cases hx : samePair u v e with
            | false => rfl
            | true =>
                rcases samePair_eq_true_iff.mp hx with ⟨ha, hb⟩ | ⟨ha, hb⟩
                · exact absurd ha h1
                · exact absurd hb h2
          rw [if_neg (by simpa using hsp)]
          exact hrest

/-- Every neighbor entry of a well-formed topology names a node, carries a
weight of at least 1, and records the looked-up weight. -/
lemma nbrs_spec {m : NetworkModel} (hG : GoodGraph m) (u : Node) :
    ∀ vw ∈ nbrs m.gedges u,
      vw.1 ∈ m.nodes ∧ 1 ≤ vw.2 ∧ lookupW m.gedges u vw.1 = some vw.2 := by
  intro vw hvw
  have hlook : lookupW m.gedges u vw.1 = some vw.2 :=
    nbrs_lookupW m.gedges hG.2 u vw.1 vw.2 hvw
  have hedge := hasEdge_of_lookupW hlook
  refine ⟨(endpoint_mem hG hedge).2, ?_, hlook⟩
  exact lookupW_pos (fun e he => (hG.1 e he).1) hlook

/-- The neighbor list never exceeds the edge list in length. -/
lemma nbrs_length_le : ∀ (ge : List (Node × Node × ℤ)) (u : Node),
    (nbrs ge u).length ≤ ge.length := by
  intro ge
  induction ge with
  | nil => intro u; exact le_refl _
  | cons e rest ih =>
      intro u
      rw [nbrs_cons]
      split_ifs <;> simp only [List.length_cons] <;>
        first
          | exact Nat.succ_le_succ (ih u)
          | exact le_trans (ih u) (Nat.le_succ _)

/-- Walks are nonempty. -/
lemma isWalkB_ne_nil {ge : List (Node × Node × ℤ)} {p : List Node}
    (h : isWalkB ge p = true) : p ≠ [] := by
  intro hp
  rw [hp] at h
  exact absurd h (by simp [isWalkB])

/-- A walk of positive-weight edges weighs at least its edge count. -/
lemma walkW_lower {ge : List (Node × Node × ℤ)} (hW : ∀ e ∈ ge, 1 ≤ e.2.2) :
    ∀ p : List Node, isWalkB ge p = true → (p.length : ℤ) - 1 ≤ walkW ge p := by
  intro p
  induction p with
  | nil => intro h; exact absurd h (by simp [isWalkB])
  | cons u rest ih =>
      intro h
      cases rest with
      | nil => simp [walkW]
      | cons v rest' =>
          rw [show isWalkB ge (u :: v :: rest') =
            (hasEdgeB ge u v && isWalkB ge (v :: rest')) from rfl,
            Bool.and_eq_true] at h
          obtain ⟨h1, h2⟩ := h
          have ihh := ih h2
          obtain ⟨w, hw⟩ := lookupW_of_hasEdge h1
          have hw1 := lookupW_pos hW hw
          rw [show walkW ge (u :: v :: rest') =
            (lookupW ge u v).getD 0 + walkW ge (v :: rest') from rfl, hw]
          simp only [Option.getD_some, List.length_cons] at ihh ⊢
          push_cast at ihh ⊢
          omega

/-- Walks of positive-weight edges have nonnegative weight. -/
lemma walkW_nonneg {ge : List (Node × Node × ℤ)} (hW : ∀ e ∈ ge, 1 ≤ e.2.2)
    {p : List Node} (h : isWalkB ge p = true) : 0 ≤ walkW ge p := by
  have h1 := walkW_lower hW p h
  have h2 : (1 : ℤ) ≤ p.length := by
    have hne := isWalkB_ne_nil h
    cases p with
    | nil => exact absurd rfl hne
    | cons x r => simp only [List.length_cons]; push_cast; omega
  omega

/-- Extending a walk across one more edge. -/
lemma isWalkB_concat {ge : List (Node × Node × ℤ)} :
    ∀ (p : List Node) (a v : Node), isWalkB ge p = true → p.getLast? = some a →
      hasEdgeB ge a v = true → isWalkB ge (p ++ [v]) = true := by
  intro p
  induction p with
  | nil => intro a v h; exact absurd h (by simp [isWalkB])
  | cons u rest ih =>
      intro a v h hlast hedge
      cases rest with
      | nil =>
          have hu : u = a := by simpa using hlast
          show (hasEdgeB ge u v && isWalkB ge [v]) = true
          rw [hu, hedge]
          rfl
      | cons u' rest' =>
          rw [show isWalkB ge (u :: u' :: rest') =
            (hasEdgeB ge u u' && isWalkB ge (u' :: rest')) from rfl,
            Bool.and_eq_true] at h
          rw [List.getLast?_cons_cons] at hlast
          have := ih a v h.2 hlast hedge
          show (hasEdgeB ge u u' && isWalkB ge ((u' :: rest') ++ [v])) = true
          rw [h.1, this]
          rfl

/-- Weight of a walk extended across one more edge. -/
lemma walkW_concat {ge : List (Node × Node × ℤ)} :
    ∀ (p : List Node) (a v : Node), p.getLast? = some a →
      walkW ge (p ++ [v]) = walkW ge p + (lookupW ge a v).getD 0 := by
  intro p
  induction p with
  | nil => intro a v h; exact absurd h (by simp)
  | cons u rest ih =>
      intro a v hlast
      cases rest with
      | nil =>
          have hu : u = a := by simpa using hlast
          show (lookupW ge u v).getD 0 + walkW ge [v] =
            walkW ge [u] + (lookupW ge a v).getD 0
          rw [hu]
          simp [walkW]
      | cons u' rest' =>
          rw [List.getLast?_cons_cons] at hlast
          show (lookupW ge u u').getD 0 + walkW ge ((u' :: rest') ++ [v]) = _
          rw [ih a v hlast]
          show _ = (lookupW ge u u').getD 0 + walkW ge (u' :: rest') + _
          ring

/-- Splitting a walk at its final edge. -/
lemma isWalkB_concat_split {ge : List (Node × Node × ℤ)} :
    ∀ (p : List Node) (v : Node), isWalkB ge (p ++ [v]) = true →
      p = [] ∨ (isWalkB ge p = true ∧ ∃ a, p.getLast? = some a ∧
        hasEdgeB ge a v = true) := by
  intro p
  induction p with
  | nil => intro v _; exact Or.inl rfl
  | cons u rest ih =>
      intro v h
      cases rest with
      | nil =>
          rw [show ((([u] : List Node) ++ [v]) = u :: v :: []) from rfl,
            show isWalkB ge (u :: v :: []) =
              (hasEdgeB ge u v && isWalkB ge [v]) from rfl,
            Bool.and_eq_true] at h
          exact Or.inr ⟨rfl, u, rfl, h.1⟩
      | cons u' rest' =>
          rw [show ((u :: u' :: rest') ++ [v]) = u :: ((u' :: rest') ++ [v]) from rfl] at h
          rw [show (u' :: rest') ++ [v] = u' :: (rest' ++ [v]) from rfl] at h
          rw [show isWalkB ge (u :: u' :: (rest' ++ [v])) =
            (hasEdgeB ge u u' && isWalkB ge (u' :: (rest' ++ [v]))) from rfl,
            Bool.and_eq_true] at h
          obtain ⟨h1, h2⟩ := h
          rcases ih v h2 with hnil | ⟨hwalk, a, hlast, hedge⟩
          · exact absurd hnil (by simp)
          · refine Or.inr ⟨?_, a, ?_, hedge⟩
            · rw [show isWalkB ge (u :: u' :: rest') =
                (hasEdgeB ge u u' && isWalkB ge (u' :: rest')) from rfl, h1, hwalk]
              rfl
            · rw [List.getLast?_cons_cons]
              exact hlast

/-- Relaxation does not change the visited set. -/
lemma relaxOne_visited (src cur : Node) (d : ℤ) (s : DState) (vw : Node × ℤ) :
    (relaxOne src cur d s vw).visited = s.visited := by
  simp only [relaxOne]
  split_ifs <;> rfl

/-- Relaxation adds at most one heap entry. -/
lemma relaxOne_heap_len (src cur : Node) (d : ℤ) (s : DState) (vw : Node × ℤ) :
    (relaxOne src cur d s vw).heap.length ≤ s.heap.length + 1 := by
  simp only [relaxOne]
  split_ifs <;> simp

/-- Relaxation only decreases finite tentative distances. -/
lemma relaxOne_dist_le (src cur : Node) (d : ℤ) (s : DState) (vw : Node × ℤ) :
    ∀ x t, s.dist x = some t →
      ∃ t', (relaxOne src cur d s vw).dist x = some t' ∧ t' ≤ t := by
  intro x t hx
  simp only [relaxOne]
  split_ifs with h1 h2 h3
  · exact ⟨t, hx, le_refl t⟩
  · by_cases hxv : x = vw.1
    · subst hxv
      refine ⟨d + vw.2, by simp [Function.update_same], ?_⟩
      rw [hx] at h2
      simp [ltOptZ] at h2
      exact le_of_lt h2
    · exact ⟨t, by simp [Function.update_noteq hxv, hx], le_refl t⟩
  · by_cases hxv : x = vw.1
    · subst hxv
      refine ⟨d + vw.2, by simp [Function.update_same], ?_⟩
      rw [hx] at h2
      simp [ltOptZ] at h2
      exact le_of_lt h2
    · exact ⟨t, by simp [Function.update_noteq hxv, hx], le_refl t⟩
  · exact ⟨t, hx, le_refl t⟩

/-- Relaxation leaves finalized nodes' entries untouched. -/
lemma relaxOne_frozen (src cur : Node) (d : ℤ) (s : DState) (vw : Node × ℤ)
    (x : Node) (hx : x ∈ s.visited) :
    (relaxOne src cur d s vw).dist x = s.dist x ∧
    (relaxOne src cur d s vw).nxt x = s.nxt x := by
  simp only [relaxOne]
  split_ifs with h1 h2 h3
  · exact ⟨rfl, rfl⟩
  · have hne : x ≠ vw.1 := fun he => h1 (he ▸ hx)
    exact ⟨by simp [Function.update_noteq hne], by simp [Function.update_noteq hne]⟩
  · have hne : x ≠ vw.1 := fun he => h1 (he ▸ hx)
    exact ⟨by simp [Function.update_noteq hne], by simp [Function.update_noteq hne]⟩
  · exact ⟨rfl, rfl⟩

/-- Distance decrease along a whole relaxation fold. -/
lemma foldl_relax_dist_le (src cur : Node) (d : ℤ) :
    ∀ (l : List (Node × ℤ)) (s : DState) (x : Node) (t : ℤ), s.dist x = some t →
      ∃ t', (l.foldl (relaxOne src cur d) s).dist x = some t' ∧ t' ≤ t := by
  intro l
  induction l with
  | nil => intro s x t hx; exact ⟨t, hx, le_refl t⟩
  | cons vw rest ih =>
      intro s x t hx
      obtain ⟨t1, h1, hle1⟩ := relaxOne_dist_le src cur d s vw x t hx
      obtain ⟨t2, h2, hle2⟩ := ih (relaxOne src cur d s vw) x t1 h1
      exact ⟨t2, h2, le_trans hle2 hle1⟩

/-- Relaxing one neighbor of the just-finalized node preserves the
relaxation invariant. -/
lemma relaxOne_RInv (m : NetworkModel) (src cur : Node) (d : ℤ)
    (hd0 : 0 ≤ d) (s : DState) (vw : Node × ℤ)
    (hvw : vw.1 ∈ m.nodes ∧ 1 ≤ vw.2 ∧ lookupW m.gedges cur vw.1 = some vw.2)
    (hs : RInv m src cur d s) : RInv m src cur d (relaxOne src cur d s vw) := by
  obtain ⟨hvN, hw1, hvlook⟩ := hvw
  by_cases h1 : vw.1 ∈ s.visited
  · rw [show relaxOne src cur d s vw = s from by
      simp only [relaxOne]; rw [if_pos h1]]
    exact hs
  · by_cases h2 : ltOptZ (d + vw.2) (s.dist vw.1) = true
    case neg =>
      rw [show relaxOne src cur d s vw = s from by
        simp only [relaxOne]; rw [if_neg h1, if_neg h2]]
      exact hs
    case pos =>
      have hvsrc : vw.1 ≠ src := by
        intro he
        rw [he, hs.distSrc] at h2
        simp [ltOptZ] at h2
        omega
      have hvcur : vw.1 ≠ cur := fun he => h1 (he ▸ hs.curVis)
      have hstate : relaxOne src cur d s vw =
          { heap := (d + vw.2, vw.1) :: s.heap,
            dist := Function.update s.dist vw.1 (some (d + vw.2)),
            nxt := Function.update s.nxt vw.1
              (if cur = src then some vw.1 else s.nxt cur),
            visited := s.visited } := by
        simp only [relaxOne]
        rw [if_neg h1, if_pos h2]
      rw [hstate]
      constructor <;> dsimp only
      -- heapNode
      · intro e he
        rcases List.mem_cons.mp he with he | he
        · rw [he]; exact hvN
        · exact hs.heapNode e he
      -- heapPos
      · intro e he
        rcases List.mem_cons.mp he with he | he
        · rw [he]; show 0 ≤ d + vw.2; omega
        · exact hs.heapPos e he
      -- heapGe
      · intro e he t ht
        rcases List.mem_cons.mp he with he | he
        · rw [he] at ht ⊢
          show t ≤ d + vw.2
          simp only [Function.update_same, Option.some.injEq] at ht
          omega
        · by_cases hev : e.2 = vw.1
          · rw [hev, Function.update_same, Option.some.injEq] at ht
            have hfin := hs.heapFin e he
            cases hold : s.dist e.2 with
            | none => exact absurd hold hfin
            | some told =>
                have hge := hs.heapGe e he told hold
                rw [hev] at hold
                rw [hold] at h2
                simp [ltOptZ] at h2
                omega
          · rw [Function.update_noteq hev] at ht
            exact hs.heapGe e he t ht
      -- heapFin
      · intro e he
        by_cases hev : e.2 = vw.1
        · rw [hev, Function.update_same]; simp
        · rw [Function.update_noteq hev]
          rcases List.mem_cons.mp he with he | he
          · exact absurd (congrArg Prod.snd he) hev
          · exact hs.heapFin e he
      -- visNode
      · exact hs.visNode
      -- visNodup
      · exact hs.visNodup
      -- visFin
      · intro x hx
        have hne : x ≠ vw.1 := fun he => h1 (he ▸ hx)
        rw [Function.update_noteq hne]
        exact hs.visFin x hx
      -- pend
      · intro x hx hnx
        by_cases hxv : x = vw.1
        · subst hxv
          exact ⟨d + vw.2, Function.update_same _ _ _, List.mem_cons_self _ _⟩
        · rw [Function.update_noteq hxv] at hx ⊢
          obtain ⟨t, ht, hmem⟩ := hs.pend x hx hnx
          exact ⟨t, ht, List.mem_cons_of_mem _ hmem⟩
      -- mono
      · intro x hx e he t ht
        have hne : x ≠ vw.1 := fun he' => h1 (he' ▸ hx)
        rw [Function.update_noteq hne] at ht
        rcases List.mem_cons.mp he with he | he
        · rw [he]
          show t ≤ d + vw.2
          have := hs.visLe x hx t ht
          omega
        · exact hs.mono x hx e he t ht
      -- visLe
      · intro x hx t ht
        have hne : x ≠ vw.1 := fun he' => h1 (he' ▸ hx)
        rw [Function.update_noteq hne] at ht
        exact hs.visLe x hx t ht
      -- relaxedOld
      · intro x hx hxcur vw' hvw' tx htx
        have hne : x ≠ vw.1 := fun he' => h1 (he' ▸ hx)
        rw [Function.update_noteq hne] at htx
        obtain ⟨ty, hty, hle⟩ := hs.relaxedOld x hx hxcur vw' hvw' tx htx
        by_cases hv' : vw'.1 = vw.1
        · rw [hv', Function.update_same]
          refine ⟨d + vw.2, rfl, ?_⟩
          rw [hv'] at hty
          rw [hty] at h2
          simp [ltOptZ] at h2
          omega
        · rw [Function.update_noteq hv']
          exact ⟨ty, hty, hle⟩
      -- curVis
      · exact hs.curVis
      -- curDist
      · rw [Function.update_noteq hvcur.symm]
        exact hs.curDist
      -- distSrc
      · rw [Function.update_noteq hvsrc.symm]
        exact hs.distSrc
      -- path
      · intro x t ht
        by_cases hxv : x = vw.1
        · subst hxv
          rw [Function.update_same, Option.some.injEq] at ht
          have hedge : hasEdgeB m.gedges cur vw.1 = true := hasEdge_of_lookupW hvlook
          obtain ⟨pc, hc1, hc2, hc3, hc4, hc5, hc6⟩ := hs.path cur d hs.curDist
          by_cases hcs : cur = src
          · have hpc : pc = [src] := hc5 hcs
            have hd_eq : d = 0 := by
              have := hs.curDist
              rw [hcs, hs.distSrc] at this
              exact (Option.some.inj this).symm
            refine ⟨[src, vw.1], ?_, rfl, ?_, ?_, ?_, ?_⟩
            · show (hasEdgeB m.gedges src vw.1 && isWalkB m.gedges [vw.1]) = true
              rw [← hcs, hedge]
              rfl
            · rfl
            · show (lookupW m.gedges src vw.1).getD 0 + walkW m.gedges [vw.1] = t
              rw [← hcs, hvlook]
              show vw.2 + 0 = t
              omega
            · intro he; exact absurd he hvsrc
            · intro _
              refine ⟨vw.1, [], ?_, rfl⟩
              rw [Function.update_same, if_pos hcs]
          · obtain ⟨h, rest, hn, hpeq⟩ := hc6 hcs
            refine ⟨pc ++ [vw.1], isWalkB_concat pc cur vw.1 hc1 hc3 hedge, ?_, ?_, ?_, ?_, ?_⟩
            · rw [hpeq]; rfl
            · exact List.getLast?_concat pc
            · rw [walkW_concat pc cur vw.1 hc3, hvlook, hc4]
              show d + vw.2 = t
              omega
            · intro he; exact absurd he hvsrc
            · intro _
              refine ⟨h, rest ++ [vw.1], ?_, ?_⟩
              · rw [Function.update_same, if_neg hcs]
                exact hn
              · rw [hpeq]
                rfl
        · rw [Function.update_noteq hxv] at ht
          obtain ⟨p, hp1, hp2, hp3, hp4, hp5, hp6⟩ := hs.path x t ht
          refine ⟨p, hp1, hp2, hp3, hp4, hp5, ?_⟩
          intro hxs
          obtain ⟨h, rest, hn, hpeq⟩ := hp6 hxs
          refine ⟨h, rest, ?_, hpeq⟩
          rw [Function.update_noteq hxv]
          exact hn

/-- Folding the relaxation over a list of valid neighbor entries preserves
the invariant, leaves every listed neighbor with a distance bounded by the
relaxed value, and adds at most one heap entry per neighbor. -/
lemma relax_fold (m : NetworkModel) (src cur : Node) (d : ℤ) (hd0 : 0 ≤ d) :
    ∀ (l : List (Node × ℤ)) (s : DState),
      (∀ vw ∈ l, vw.1 ∈ m.nodes ∧ 1 ≤ vw.2 ∧ lookupW m.gedges cur vw.1 = some vw.2) →
      RInv m src cur d s →
      RInv m src cur d (l.foldl (relaxOne src cur d) s) ∧
      (∀ vw ∈ l, ∃ ty, (l.foldl (relaxOne src cur d) s).dist vw.1 = some ty ∧
        ty ≤ d + vw.2) ∧
      (l.foldl (relaxOne src cur d) s).visited = s.visited ∧
      (l.foldl (relaxOne src cur d) s).heap.length ≤ s.heap.length + l.length := by
  intro l
  induction l with
  | nil => intro s _ hs; exact ⟨hs, by simp, rfl, by simp⟩
  | cons vw rest ih =>
      intro s hl hs
      simp only [List.foldl_cons]
      have hvw := hl vw (List.mem_cons_self vw rest)
      have hrest : ∀ vw' ∈ rest, vw'.1 ∈ m.nodes ∧ 1 ≤ vw'.2 ∧
          lookupW m.gedges cur vw'.1 = some vw'.2 :=
        fun vw' h => hl vw' (List.mem_cons_of_mem _ h)
      have hs1 : RInv m src cur d (relaxOne src cur d s vw) :=
        relaxOne_RInv m src cur d hd0 s vw hvw hs
      have hcond1 : ∃ ty, (relaxOne src cur d s vw).dist vw.1 = some ty ∧
          ty ≤ d + vw.2 := by
        by_cases h1 : vw.1 ∈ s.visited
        · rw [show relaxOne src cur d s vw = s from by
            simp only [relaxOne]; rw [if_pos h1]]
          cases hdv : s.dist vw.1 with
          | none => exact absurd hdv (hs.visFin vw.1 h1)
          | some tv =>
              have := hs.visLe vw.1 h1 tv hdv
              exact ⟨tv, rfl, by omega⟩
        · by_cases h2 : ltOptZ (d + vw.2) (s.dist vw.1) = true
          · refine ⟨d + vw.2, ?_, le_refl _⟩
            simp only [relaxOne]
            rw [if_neg h1, if_pos h2]
            exact Function.update_same _ _ _
          · rw [show relaxOne src cur d s vw = s from by
              simp only [relaxOne]; rw [if_neg h1, if_neg h2]]
            cases hdv : s.dist vw.1 with
            | none => rw [hdv] at h2; exact absurd rfl h2
            | some tv =>
                rw [hdv] at h2
                simp [ltOptZ] at h2
                exact ⟨tv, rfl, h2⟩
      obtain ⟨hfold, hconds, hvis, hlen⟩ := ih (relaxOne src cur d s vw) hrest hs1
      refine ⟨hfold, ?_, ?_, ?_⟩
      · intro vw' hvw'
        rcases List.mem_cons.mp hvw' with h | h
        · obtain ⟨ty, hty, hle⟩ := hcond1
          obtain ⟨ty2, hty2, hle2⟩ :=
            foldl_relax_dist_le src cur d rest (relaxOne src cur d s vw) vw.1 ty hty
          rw [h]
          exact ⟨ty2, hty2, le_trans hle2 hle⟩
        · exact hconds vw' h
      · rw [hvis, relaxOne_visited]
      · refine le_trans hlen ?_
        have := relaxOne_heap_len src cur d s vw
        simp only [List.length_cons]
        omega

/-- After the neighbors of `cur` are all relaxed, the relaxation invariant
strengthens back to the main loop invariant. -/
lemma RInv_to_DInv (m : NetworkModel) (src cur : Node) (d : ℤ) (s : DState)
    (hR : RInv m src cur d s)
    (hall : ∀ vw ∈ nbrs m.gedges cur, ∃ ty, s.dist vw.1 = some ty ∧ ty ≤ d + vw.2) :
    DInv m src s := by
  refine ⟨hR.heapNode, hR.heapPos, hR.heapGe, hR.heapFin, hR.visNode, hR.visNodup,
    hR.visFin, hR.pend, hR.mono, ?_, hR.distSrc, hR.path⟩
  intro x hx vw hvw tx htx
  by_cases hxc : x = cur
  · subst hxc
    have hd : tx = d := by
      have := hR.curDist
      rw [htx] at this
      exact Option.some.inj this
    subst hd
    exact hall vw hvw
  · exact hR.relaxedOld x hx hxc vw hvw tx htx

/-- Master lemma for the Dijkstra loop: from any invariant state, with
enough fuel, the loop runs the heap dry and the invariant holds at the
final state. -/
lemma dloop_master (m : NetworkModel) (hG : GoodGraph m) (src : Node) :
    ∀ (fuel : ℕ) (s : DState), DInv m src s →
      s.heap.length + (m.nodes.length - s.visited.length) * (m.gedges.length + 1) ≤ fuel →
      ∃ s' : DState, dijkstraLoop m src fuel s = (s'.dist, s'.nxt) ∧
        DInv m src s' ∧ s'.heap = [] := by
  intro fuel
  induction fuel with
  | zero =>
      intro s hs hb
      refine ⟨s, rfl, hs, ?_⟩
      have : s.heap.length = 0 := by omega
      exact List.length_eq_zero.mp this
  | succ fuel ih =>
      intro s hs hb
      simp only [dijkstraLoop]
      cases hpop : popMin s.heap with
      | none =>
          have hnil : s.heap = [] := by
            cases hh : s.heap with
            | nil => rfl
            | cons e rest => rw [hh] at hpop; exact absurd hpop (by simp [popMin])
          exact ⟨s, rfl, hs, hnil⟩
      | some pr =>
          obtain ⟨⟨dc, cur⟩, heap'⟩ := pr
          dsimp only
          obtain ⟨hmem, herase, hmin⟩ := popMin_spec hpop
          have hsub' : heap' ⊆ s.heap := by
            rw [herase]; exact List.erase_subset _ _
          have hlenpos : 0 < s.heap.length := List.length_pos_of_mem hmem
          have hlen' : heap'.length = s.heap.length - 1 := by
            rw [herase]
            exact List.length_erase_of_mem hmem
          by_cases hvis : cur ∈ s.visited
          · rw [if_pos hvis]
            apply ih
            · refine ⟨?_, ?_, ?_, ?_, hs.visNode, hs.visNodup, hs.visFin, ?_, ?_,
                ?_, hs.distSrc, hs.path⟩
              · intro e he; exact hs.heapNode e (hsub' he)
              · intro e he; exact hs.heapPos e (hsub' he)
              · intro e he; exact hs.heapGe e (hsub' he)
              · intro e he; exact hs.heapFin e (hsub' he)
              · intro x hx hnx
                obtain ⟨t, ht, hmem2⟩ := hs.pend x hx hnx
                refine ⟨t, ht, ?_⟩
                rw [herase]
                have hne : (t, x) ≠ (dc, cur) := by
                  intro hcontra
                  exact hnx (by rw [show x = cur from congrArg Prod.snd hcontra]; exact hvis)
                exact (List.mem_erase_of_ne hne).mpr hmem2
              · intro x hx e he
                exact hs.mono x hx e (hsub' he)
              · intro x hx vw hvw tx htx
                exact hs.relaxed x hx vw hvw tx htx
            · show heap'.length +
                (m.nodes.length - s.visited.length) * (m.gedges.length + 1) ≤ fuel
              omega
          · rw [if_neg hvis]
            have hfin := hs.heapFin _ hmem
            obtain ⟨t0, ht0⟩ : ∃ t0, s.dist cur = some t0 := by
              cases hd : s.dist cur with
              | none => exact absurd hd hfin
              | some t => exact ⟨t, rfl⟩
            have hge := hs.heapGe _ hmem t0 ht0
            obtain ⟨t0', ht0', hmem'⟩ := hs.pend cur (by rw [ht0]; simp) hvis
            have ht00 : t0' = t0 := by
              rw [ht0] at ht0'
              exact (Option.some.inj ht0').symm
            subst ht00
            have hdceq : dc = t0' := le_antisymm (hmin _ hmem') hge
            have hdist_cur : s.dist cur = some dc := by rw [hdceq]; exact ht0
            have hd0 : 0 ≤ dc := hs.heapPos _ hmem
            have hcurN : cur ∈ m.nodes := hs.heapNode _ hmem
            have hR1 : RInv m src cur dc
                { heap := heap', dist := s.dist, nxt := s.nxt,
                  visited := cur :: s.visited } := by
              constructor <;> dsimp only
              · intro e he; exact hs.heapNode e (hsub' he)
              · intro e he; exact hs.heapPos e (hsub' he)
              · intro e he; exact hs.heapGe e (hsub' he)
              · intro e he; exact hs.heapFin e (hsub' he)
              · intro x hx
                rcases List.mem_cons.mp hx with hx | hx
                · rw [hx]; exact hcurN
                · exact hs.visNode x hx
              · exact List.nodup_cons.mpr ⟨hvis, hs.visNodup⟩
              · intro x hx
                rcases List.mem_cons.mp hx with hx | hx
                · rw [hx, ht0]; simp
                · exact hs.visFin x hx
              · intro x hx hnx
                have hnx' : x ∉ s.visited := fun h => hnx (List.mem_cons_of_mem _ h)
                have hxcur : x ≠ cur := fun h => hnx (h ▸ List.mem_cons_self cur _)
                obtain ⟨t, ht, hmem2⟩ := hs.pend x hx hnx'
                refine ⟨t, ht, ?_⟩
                rw [herase]
                exact (List.mem_erase_of_ne (by
                  intro hcontra
                  exact hxcur (congrArg Prod.snd hcontra))).mpr hmem2
              · intro x hx e he t ht
                rcases List.mem_cons.mp hx with hx | hx
                · rw [hx] at ht
                  rw [hdist_cur] at ht
                  have : t = dc := (Option.some.inj ht).symm
                  subst this
                  exact hmin e (hsub' he)
                · exact hs.mono x hx e (hsub' he) t ht
              · intro x hx t ht
                rcases List.mem_cons.mp hx with hx | hx
                · rw [hx, hdist_cur] at ht
                  rw [(Option.some.inj ht).symm]
                · exact hs.mono x hx _ hmem t ht
              · intro x hx hxcur vw hvw tx htx
                rcases List.mem_cons.mp hx with hx | hx
                · exact absurd hx hxcur
                · exact hs.relaxed x hx vw hvw tx htx
              · exact List.mem_cons_self cur _
              · exact hdist_cur
              · exact hs.distSrc
              · exact hs.path
            obtain ⟨hfold, hconds, hviseq, hheaplen⟩ :=
              relax_fold m src cur dc hd0 (nbrs m.gedges cur)
                { heap := heap', dist := s.dist, nxt := s.nxt, visited := cur :: s.visited }
                (nbrs_spec hG cur) hR1
            have hDfold := RInv_to_DInv m src cur dc _ hfold hconds
            apply ih _ hDfold
            have hnlen : (cur :: s.visited).length ≤ m.nodes.length := by
              have hsub : (cur :: s.visited) ⊆ m.nodes := by
                intro x hx
                rcases List.mem_cons.mp hx with hx | hx
                · rw [hx]; exact hcurN
                · exact hs.visNode x hx
              exact List.Subperm.length_le
                (List.subperm_of_subset (List.nodup_cons.mpr ⟨hvis, hs.visNodup⟩) hsub)
            have hnbrs := nbrs_length_le m.gedges cur
            rw [hviseq]
            have hsubeq : m.nodes.length - s.visited.length =
                (m.nodes.length - (cur :: s.visited).length) + 1 := by
              simp only [List.length_cons] at hnlen ⊢
              omega
            rw [hsubeq] at hb
            rw [add_mul, one_mul] at hb
            simp only [List.length_cons] at *
            omega

/-- The initial Dijkstra state satisfies the loop invariant. -/
lemma dInit_DInv (m : NetworkModel) (src : Node) (hs : src ∈ m.nodes) :
    DInv m src (dInit src) := by
  have hupd : ∀ x, Function.update (fun _ : Node => (none : Option ℤ)) src (some 0) x ≠
      none → x = src := by
    intro x hx
    by_cases h : x = src
    · exact h
    · rw [Function.update_noteq h] at hx
      exact absurd rfl hx
  constructor <;> dsimp only [dInit]
  · intro e he
    rw [show e = ((0 : ℤ), src) from by simpa using he]
    exact hs
  · intro e he
    rw [show e = ((0 : ℤ), src) from by simpa using he]
  · intro e he t ht
    rw [show e = ((0 : ℤ), src) from by simpa using he] at ht ⊢
    simp only [Function.update_same, Option.some.injEq] at ht
    omega
  · intro e he
    rw [show e = ((0 : ℤ), src) from by simpa using he]
    simp [Function.update_same]
  · intro x hx; exact absurd hx (by simp)
  · exact List.nodup_nil
  · intro x hx; exact absurd hx (by simp)
  · intro x hx _
    have hxs := hupd x hx
    subst hxs
    exact ⟨0, Function.update_same _ _ _, by simp⟩
  · intro x hx; exact absurd hx (by simp)
  · intro x hx; exact absurd hx (by simp)
  · exact Function.update_same _ _ _
  · intro x t ht
    have hxs : x = src := hupd x (by rw [ht]; simp)
    subst hxs
    rw [Function.update_same, Option.some.injEq] at ht
    subst ht
    exact ⟨[x], rfl, rfl, rfl, rfl, fun _ => rfl, fun h => absurd rfl h⟩

/-- The Dijkstra run of `get_forwarding_table` terminates with an empty
heap in an invariant state. -/
lemma dresult_spec (m : NetworkModel) (hG : GoodGraph m) (src : Node) (hs : src ∈ m.nodes) :
    ∃ s' : DState, dresult m src = (s'.dist, s'.nxt) ∧ DInv m src s' ∧ s'.heap = [] := by
  apply dloop_master m hG src (dijkstraFuel m) (dInit src) (dInit_DInv m src hs)
  show 1 + (m.nodes.length - 0) * (m.gedges.length + 1) ≤ dijkstraFuel m
  unfold dijkstraFuel
  simp only [Nat.sub_zero]
  omega

/-- With an empty heap, every node at a finite tentative distance is
finalized. -/
lemma final_visited {m : NetworkModel} {src : Node} {s' : DState}
    (hI : DInv m src s') (hnil : s'.heap = []) :
    ∀ x, s'.dist x ≠ none → x ∈ s'.visited := by
  intro x hx
  by_contra hnx
  obtain ⟨t, _, hmem⟩ := hI.pend x hx hnx
  rw [hnil] at hmem
  exact absurd hmem (by simp)

/-- Lower bound at termination: the final tentative distance of the walk's
endpoint is at most the weight of any walk from the source. -/
lemma final_lower {m : NetworkModel} {src : Node} {s' : DState}
    (hI : DInv m src s') (hnil : s'.heap = []) :
    ∀ p : List Node, isWalkB m.gedges p = true → p.head? = some src →
      ∀ x, p.getLast? = some x → ∃ t, s'.dist x = some t ∧ t ≤ walkW m.gedges p := by
  suffices h : ∀ (n : ℕ) (p : List Node), p.length ≤ n → isWalkB m.gedges p = true →
      p.head? = some src → ∀ x, p.getLast? = some x →
      ∃ t, s'.dist x = some t ∧ t ≤ walkW m.gedges p by
    intro p hw hh x hl
    exact h p.length p le_rfl hw hh x hl
  intro n
  induction n with
  | zero =>
      intro p hp hw
      have hne := isWalkB_ne_nil hw
      cases p with
      | nil => exact absurd rfl hne
      | cons a r => simp at hp
  | succ n ihn =>
      intro p hp hw hh x hl
      rcases List.eq_nil_or_concat p with rfl | ⟨q, v, hqv⟩
      · exact absurd hw (by simp [isWalkB])
      · rw [List.concat_eq_append] at hqv
        subst hqv
        have hx : x = v := by
          rw [List.getLast?_concat] at hl
          exact (Option.some.inj hl).symm
        subst hx
        rcases isWalkB_concat_split q x hw with rfl | ⟨hwq, a, hlast, hedge⟩
        · have hxs : x = src := by simpa using hh
          subst hxs
          refine ⟨0, hI.distSrc, ?_⟩
          simp [walkW]
        · have hqne : q ≠ [] := isWalkB_ne_nil hwq
          have hhq : q.head? = some src := by
            rw [List.head?_append_of_ne_nil _ hqne] at hh
            exact hh
          have hlq : q.length ≤ n := by
            have : (q ++ [x]).length = q.length + 1 := by simp
            omega
          obtain ⟨ta, hta, htle⟩ := ihn q hlq hwq hhq a hlast
          have havis : a ∈ s'.visited :=
            final_visited hI hnil a (by rw [hta]; simp)
          obtain ⟨w, hwk⟩ := lookupW_of_hasEdge hedge
          have hnb : (x, w) ∈ nbrs m.gedges a := mem_nbrs_of_lookupW _ _ _ _ hwk
          obtain ⟨ty, hty, hle⟩ := hI.relaxed a havis (x, w) hnb ta hta
          refine ⟨ty, hty, ?_⟩
          rw [walkW_concat q a x hlast, hwk]
          simp only [Option.getD_some] at hle ⊢
          omega

/-- For a present source and a destination other than it, the forwarding
table entry is the final `next_hop` dict entry of the Dijkstra run. -/
lemma gft_eq (m : NetworkModel) (u d : Node) (hu : u ∈ m.nodes) (hd : d ≠ u) :
    get_forwarding_table m u d = (dresult m u).2 d := by
  simp [get_forwarding_table, hu, hd]

/-- Unfolding of one step of the forwarding chain. -/
lemma followChain_succ (m : NetworkModel) (d : Node) (n : ℕ) (u : Node) :
    followChain m d (n + 1) u = (if u = d then some [u] else
      match get_forwarding_table m u d with
      | none => none
      | some h => (followChain m d n h).map (fun p => u :: p)) := rfl

/-- Degenerate forwarding chain: when the packet already sits at the
destination, the chain is the single-node walk and the recorded distance
is 0. -/
lemma chain_base (m : NetworkModel) (hG : GoodGraph m) (n : ℕ) (u : Node) (t : ℤ)
    (hu : u ∈ m.nodes) (hdist : (dresult m u).1 u = some t) :
    ∃ p, followChain m u n u = some p ∧ isWalkB m.gedges p = true ∧
      p.head? = some u ∧ p.getLast? = some u ∧ walkW m.gedges p = t ∧
      p.Nodup ∧ ∀ x ∈ p, ∃ tx, (dresult m x).1 u = some tx ∧ tx ≤ t := by
  obtain ⟨s', hres, hI, _⟩ := dresult_spec m hG u hu
  have hdist' : s'.dist u = some t := by
    have h9 := hdist
    rw [hres] at h9
    exact h9
  have ht0 : t = 0 := Option.some.inj (hdist'.symm.trans hI.distSrc)
  refine ⟨[u], ?_, rfl, rfl, rfl, ?_, ?_, ?_⟩
  · cases n with
    | zero => simp [followChain]
    | succ k => simp [followChain]
  · rw [ht0]
    rfl
  · simp
  · intro x hx
    have hxu : x = u := by simpa using hx
    subst hxu
    exact ⟨t, hdist, le_refl t⟩

/-- The forwarding chain toward `d`: from any node `u` whose Dijkstra run
assigns `d` the finite distance `t`, repeatedly moving to the next hop the
current node's own run records for `d` reaches `d` within `t.toNat` steps,
never revisits a node, and traverses a walk of weight exactly `t`;
every node on the chain has its own finite recorded distance to `d`,
at most `t`. -/
lemma chain_reaches (m : NetworkModel) (hG : GoodGraph m) :
    ∀ (n : ℕ) (u d : Node) (t : ℤ), u ∈ m.nodes → t.toNat ≤ n →
      (dresult m u).1 d = some t →
      ∃ p, followChain m d n u = some p ∧ isWalkB m.gedges p = true ∧
        p.head? = some u ∧ p.getLast? = some d ∧ walkW m.gedges p = t ∧
        p.Nodup ∧ ∀ x ∈ p, ∃ tx, (dresult m x).1 d = some tx ∧ tx ≤ t := by
  have hW : ∀ e ∈ m.gedges, 1 ≤ e.2.2 := fun e he => (hG.1 e he).1
  intro n
  induction n with
  | zero =>
      intro u d t hu htn hdist
      by_cases hud : u = d
      · subst hud
        exact chain_base m hG 0 u t hu hdist
      · exfalso
        obtain ⟨s', hres, hI, _⟩ := dresult_spec m hG u hu
        have hdist' : s'.dist d = some t := by
          have h9 := hdist
          rw [hres] at h9
          exact h9
        obtain ⟨p₀, hw0, _, _, hW0, _, hstep⟩ := hI.path d t hdist'
        obtain ⟨h, rest, _, hp0⟩ := hstep (Ne.symm hud)
        rw [hp0] at hw0 hW0
        have hlow := walkW_lower hW _ hw0
        rw [hW0] at hlow
        simp only [List.length_cons] at hlow
        omega
  | succ n ih =>
      intro u d t hu htn hdist
      by_cases hud : u = d
      · subst hud
        exact chain_base m hG (n + 1) u t hu hdist
      · obtain ⟨s', hres, hI, hnil⟩ := dresult_spec m hG u hu
        have hdist' : s'.dist d = some t := by
          have h9 := hdist
          rw [hres] at h9
          exact h9
        obtain ⟨p₀, hw0, hh0, hl0, hW0, _, hstep⟩ := hI.path d t hdist'
        obtain ⟨h, rest, hnx, hp0⟩ := hstep (Ne.symm hud)
        rw [hp0] at hw0 hl0 hW0
        have hw0' := hw0
        rw [show isWalkB m.gedges (u :: h :: rest) =
          (hasEdgeB m.gedges u h && isWalkB m.gedges (h :: rest)) from rfl,
          Bool.and_eq_true] at hw0'
        obtain ⟨hedge, hwsuf⟩ := hw0'
        obtain ⟨w, hwk⟩ := lookupW_of_hasEdge hedge
        have hw1 : 1 ≤ w := lookupW_pos hW hwk
        have hh_mem : h ∈ m.nodes := (endpoint_mem hG hedge).2
        have hlsuf : (h :: rest).getLast? = some d := by
          rw [List.getLast?_cons_cons] at hl0
          exact hl0
        have hWsuf : walkW m.gedges (h :: rest) = t - w := by
          rw [show walkW m.gedges (u :: h :: rest) =
            (lookupW m.gedges u h).getD 0 + walkW m.gedges (h :: rest) from rfl,
            hwk] at hW0
          simp only [Option.getD_some] at hW0
          omega
        obtain ⟨s2, hres2, hI2, hnil2⟩ := dresult_spec m hG h hh_mem
        obtain ⟨t1, ht1, hle1⟩ := final_lower hI2 hnil2 (h :: rest) hwsuf rfl d hlsuf
        rw [hWsuf] at hle1
        obtain ⟨q1, hq1w, _, _, hq1W, _, _⟩ := hI2.path d t1 ht1
        have ht1nn : 0 ≤ t1 := hq1W ▸ walkW_nonneg hW hq1w
        have ht1n : t1.toNat ≤ n := by omega
        have hdist2 : (dresult m h).1 d = some t1 := by
          rw [hres2]
          exact ht1
        obtain ⟨p', hfc', hwp', hhp', hlp', hWp', hnd', hall'⟩ :=
          ih h d t1 hh_mem ht1n hdist2
        obtain ⟨p'', hp''⟩ : ∃ p'', p' = h :: p'' := by
          cases p' with
          | nil => simp at hhp'
          | cons a l =>
              have ha : a = h := by simpa using hhp'
              exact ⟨l, by rw [ha]⟩
        subst hp''
        have hwup : isWalkB m.gedges (u :: h :: p'') = true := by
          rw [show isWalkB m.gedges (u :: h :: p'') =
            (hasEdgeB m.gedges u h && isWalkB m.gedges (h :: p'')) from rfl,
            hedge, hwp']
          rfl
        have hWup : walkW m.gedges (u :: h :: p'') = w + t1 := by
          rw [show walkW m.gedges (u :: h :: p'') =
            (lookupW m.gedges u h).getD 0 + walkW m.gedges (h :: p'') from rfl,
            hwk, hWp']
          simp
        obtain ⟨t', ht', hle'⟩ := final_lower hI hnil (u :: h :: p'') hwup rfl d
          (by rw [List.getLast?_cons_cons]; exact hlp')
        have ht'eq : t' = t := Option.some.inj (ht'.symm.trans hdist')
        rw [hWup, ht'eq] at hle'
        have hteq : w + t1 = t := by omega
        have hgft : get_forwarding_table m u d = some h := by
          rw [gft_eq m u d hu (Ne.symm hud), hres]
          exact hnx
        refine ⟨u :: h :: p'', ?_, hwup, rfl, ?_, ?_, ?_, ?_⟩
        · rw [followChain_succ, if_neg hud, hgft]
          show (followChain m d n h).map (fun p => u :: p) = some (u :: h :: p'')
          rw [hfc']
          rfl
        · rw [List.getLast?_cons_cons]
          exact hlp'
        · rw [hWup]
          exact hteq
        · refine List.nodup_cons.mpr ⟨?_, hnd'⟩
          intro hmem
          obtain ⟨tx, htx, hlex⟩ := hall' u hmem
          have htxt : tx = t := Option.some.inj (htx.symm.trans hdist)
          omega
        · intro x hx
          rcases List.mem_cons.mp hx with rfl | hx'
          · exact ⟨t, hdist, le_refl t⟩
          · obtain ⟨tx, htx, hlex⟩ := hall' x hx'
            exact ⟨tx, htx, by omega⟩

/-- C1: on every well-formed topology, for every source `s` present in it
and every destination `d` reachable from `s` by a walk, following next
hops toward `d` — the first hop read from `get_forwarding_table s`, each
subsequent node consulting the forwarding table computed at that node, as
routers forward packets — terminates at `d`, never revisits a node, and
traverses a walk from `s` to `d` of minimal total weight among all walks
from `s` to `d`, i.e. the edges of some shortest path; hence the hop count
equals the number of edges of that shortest path. -/
theorem C1_next_hop_chain (m : NetworkModel) (s d : Node)
    (hG : GoodGraph m) (hs : s ∈ m.nodes)
    (hreach : ∃ q, isWalkB m.gedges q = true ∧ q.head? = some s ∧
      q.getLast? = some d) :
    ∃ n p, followChain m d n s = some p ∧ isWalkB m.gedges p = true ∧
      p.head? = some s ∧ p.getLast? = some d ∧ p.Nodup ∧
      ∀ q, isWalkB m.gedges q = true → q.head? = some s → q.getLast? = some d →
        walkW m.gedges p ≤ walkW m.gedges q := by
  obtain ⟨q0, hq0w, hq0h, hq0l⟩ := hreach
  obtain ⟨s', hres, hI, hnil⟩ := dresult_spec m hG s hs
  obtain ⟨t, ht, _⟩ := final_lower hI hnil q0 hq0w hq0h d hq0l
  have hdist : (dresult m s).1 d = some t := by
    rw [hres]
    exact ht
  obtain ⟨p, hfc, hpw, hph, hpl, hpW, hpnd, _⟩ :=
    chain_reaches m hG t.toNat s d t hs le_rfl hdist
  refine ⟨t.toNat, p, hfc, hpw, hph, hpl, hpnd, ?_⟩
  intro q hqw hqh hql
  obtain ⟨t', ht', hle⟩ := final_lower hI hnil q hqw hqh d hql
  have htt : t' = t := Option.some.inj (ht'.symm.trans ht)
  rw [hpW]
  omega

/-- Witness for C1 at the spec's three-node chain A—B—C with unit
weights, source A, destination C. -/
theorem C1_next_hop_chain_witness :
    ∃ n p, followChain mABC "C" n "A" = some p ∧ isWalkB mABC.gedges p = true ∧
      p.head? = some "A" ∧ p.getLast? = some "C" ∧ p.Nodup ∧
      ∀ q, isWalkB mABC.gedges q = true → q.head? = some "A" →
        q.getLast? = some "C" → walkW mABC.gedges p ≤ walkW mABC.gedges q :=
  C1_next_hop_chain mABC "A" "C" (by decide) (by decide)
    ⟨["A", "B", "C"], by decide, by decide, by decide⟩

end NetSim
